import Mathlib

/-
  Verification of the ECSOS multiway intersection iterator
  (union_set.h / ecs_flatset.h).

  The embedding models one participating sequence as a Lean list of
  records, a cursor pair (current, end) as the suffix of the sequence
  that starts at the current position (the suffix [] is the end
  position, and equality of suffixes of one list is equality of
  positions), and the iterator state as the pair of the running
  maximum max_ and the list of cursors.

  The C++ iterator stores the cursor pairs in a tuple indexed 0..k-1;
  the set with the largest index (max_index()) is the driver: it is
  the one incremented first by operator++, and advance_until walks the
  indices from max_index() down to 0.  The embedding therefore keeps
  the cursors in processing order: the head of the cursor list is the
  driver (the LAST set of the C++ parameter pack), so a user-order
  list of sequences is reversed before constructing a state.

  The element identifier is extracted through the element_id functor
  (get_element_id); the embedding takes it as a function pid.  The
  constructor start() additionally reads the raw Id field of the
  driver record (the expression current->Id on line 321); the
  embedding takes that field as a separate function rawId so that the
  two extraction paths of the source stay distinct.

  Fallible steps return a result R with an explicit branch ub for the
  undefined behaviour of dereferencing or incrementing an end cursor,
  and fuelOut for running out of the explicit fuel that replaces the
  unbounded C++ loops.
-/

namespace ECSOS

/-- Sum of the lengths of all cursors; used as the fuel budget. -/
def totalLen {α : Type} (cs : List (List α)) : Nat :=
  (cs.map List.length).sum

/-- The inner while loop of advance_until (lines 371-377): advance one
cursor while the identifier of its current record is below m.  The
cursor is passed as head x and tail xs, so the entry dereference is
total; returning none models the branch where the cursor reaches its
end after an increment (advance_all_to_end is then triggered by the
caller). -/
def catchUp {α : Type} (pid : α → Int) (m : Int) : α → List α → Option (α × List α)
  | x, xs =>
    if pid x < m then
      match xs with
      | [] => none
      | y :: ys => catchUp pid m y ys
    else some (x, xs)

/-- Result of one full advance_until recursion over the cursors. -/
inductive PassResult (α : Type) where
  | exhausted : PassResult α
  | newMax (m : Int) (cs : List (List α)) : PassResult α
  | aligned (cs : List (List α)) : PassResult α

/-- One advance_until recursion (lines 368-391): process the cursors
in order (C++ indices N down to 0); a cursor whose identifier after
catch-up exceeds the running maximum stops the pass with the new
maximum (return false in the source); a cursor running off its end
stops it with exhausted (the advance_all_to_end branch, return true);
a complete pass with every identifier equal to the maximum is aligned
(the terminating overload, return true).  The outer none is the
undefined dereference of an end cursor at entry of the while loop. -/
def onePass {α : Type} (pid : α → Int) (m : Int) : List (List α) → Option (PassResult α)
  | [] => some (.aligned [])
  | [] :: _ => none
  | (x :: xs) :: ls =>
    match catchUp pid m x xs with
    | none => some .exhausted
    | some (y, ys) =>
      if m < pid y then some (.newMax (pid y) ((y :: ys) :: ls))
      else
        match onePass pid m ls with
        | none => none
        | some .exhausted => some .exhausted
        | some (.newMax m' ls') => some (.newMax m' ((y :: ys) :: ls'))
        | some (.aligned ls') => some (.aligned ((y :: ys) :: ls'))

/-- Result of a fallible operation of the embedding: ub is the
undefined behaviour of touching an end cursor, fuelOut the exhaustion
of the explicit fuel. -/
inductive R (σ : Type) where
  | ub : R σ
  | fuelOut : R σ
  | ok (s : σ) : R σ
deriving DecidableEq

/-- All cursors moved to their end position (advance_to_end, lines
328-346); the cursor list keeps its length. -/
def endCursors {α : Type} (cs : List (List α)) : List (List α) :=
  cs.map (fun _ => [])

/-- The while loop of operator++ (line 298): repeat advance_until
until it returns true, threading the updated maximum and cursors. -/
def syncLoop {α : Type} (pid : α → Int) : Nat → Int → List (List α) → R (Int × List (List α))
  | 0, _, _ => .fuelOut
  | fuel + 1, m, cs =>
    match onePass pid m cs with
    | none => .ub
    | some .exhausted => .ok (m, endCursors cs)
    | some (.aligned cs') => .ok (m, cs')
    | some (.newMax m' cs') => syncLoop pid fuel m' cs'

/-- operator++ (lines 279-302): increment the driver cursor (the head
of the cursor list); with a single set nothing else happens (the tag
dispatched checks are compiled out); with several sets, a driver that
reached its end sends every cursor to the end, otherwise the maximum
is reset to the identifier of the new driver record and the
synchronization loop runs.  Incrementing an end cursor is ub. -/
def advanceStep {α : Type} (pid : α → Int) (fuel : Nat) :
    Int × List (List α) → R (Int × List (List α))
  | (_, []) => .ub
  | (_, [] :: _) => .ub
  | (m, (_ :: d) :: rest) =>
    if rest.isEmpty then .ok (m, [d])
    else
      match d with
      | [] => .ok (m, endCursors (d :: rest))
      | y :: ys => syncLoop pid fuel (pid y) ((y :: ys) :: rest)

/-- The constructor body start() (lines 313-326).  With several sets,
an already exhausted cursor sends everything to the end (max_ keeps
its zero initializer); otherwise max_ is seeded from the RAW Id field
of the driver record (current->Id, line 321, NOT the element_id
functor), one advance_until pass runs over the non-driver cursors,
and if it reports a new maximum the constructor falls through to
operator++.  With a single set the emptiness check is compiled out
and the seeding expression dereferences the cursor unconditionally:
on an exhausted cursor this is the ub branch. -/
def startState {α : Type} (pid rawId : α → Int) (fuel : Nat)
    (cs : List (List α)) : R (Int × List (List α)) :=
  match cs with
  | [] => .ub
  | d :: rest =>
    if rest.isEmpty then
      match d with
      | [] => .ub
      | x :: _ => .ok (rawId x, cs)
    else
      if cs.any List.isEmpty then .ok (0, endCursors cs)
      else
        match d with
        | [] => .ub
        | x :: _ =>
          match onePass pid (rawId x) rest with
          | none => .ub
          | some .exhausted => .ok (rawId x, endCursors cs)
          | some (.aligned rest') => .ok (rawId x, d :: rest')
          | some (.newMax m' rest') => advanceStep pid fuel (m', d :: rest')

/-- Sequencing of fallible steps: ub and fuelOut abort, ok continues. -/
def rbind {σ τ : Type} : R σ → (σ → R τ) → R τ
  | .ub, _ => .ub
  | .fuelOut, _ => .fuelOut
  | .ok s, f => f s

@[simp] theorem rbind_ok {σ τ : Type} (s : σ) (f : σ → R τ) : rbind (.ok s) f = f s := rfl

@[simp] theorem rbind_ub {σ τ : Type} (f : σ → R τ) : rbind .ub f = .ub := rfl

@[simp] theorem rbind_fuelOut {σ τ : Type} (f : σ → R τ) : rbind .fuelOut f = .fuelOut := rfl

/-- The record bundle produced by operator* (lines 260-263): the
current record of every cursor, in processing order. -/
def viewAt {α : Type} (cs : List (List α)) : List α :=
  cs.filterMap List.head?

/-- A cursor list in the collective end position: the iterator equals
end() (iterator equality compares the current cursors only). -/
def isEnd {α : Type} (cs : List (List α)) : Bool :=
  cs.all List.isEmpty

/-- Full traversal of the iterator: at every positioned state emit the
identifier of the driver record together with the dereferenced view,
then advance; stop at the collective end. -/
def emit {α : Type} (pid : α → Int) : Nat → Nat → Int × List (List α) → R (List (Int × List α))
  | 0, _, _ => .fuelOut
  | ft + 1, fs, (m, cs) =>
    if isEnd cs then .ok []
    else
      match cs with
      | (x :: _) :: _ =>
        rbind (advanceStep pid fs (m, cs)) (fun s' =>
          rbind (emit pid ft fs s') (fun out => .ok ((pid x, viewAt cs) :: out)))
      | _ => .ub

/-- Number of operator++ calls needed to move from a state to the
collective end. -/
def stepsToEnd {α : Type} (pid : α → Int) : Nat → Nat → Int × List (List α) → R Nat
  | 0, _, _ => .fuelOut
  | ft + 1, fs, (m, cs) =>
    if isEnd cs then .ok 0
    else
      match cs with
      | (_ :: _) :: _ =>
        rbind (advanceStep pid fs (m, cs)) (fun s' =>
          rbind (stepsToEnd pid ft fs s') (fun n => .ok (n + 1)))
      | _ => .ub

/-- The point lookup of the ordered sequence adapter, an external
collaborator of the core (flat_set::find, used by union_set::find on
lines 427-433): on a sequence sorted by identifier it returns the
cursor at the record carrying the identifier, or the end cursor.  The
binary search contract is modelled by its result on a sorted list. -/
def seqFind {α : Type} (pid : α → Int) (i : Int) (l : List α) : List α :=
  match l.dropWhile (fun x => pid x < i) with
  | [] => []
  | x :: xs => if pid x = i then x :: xs else []

/-- The sorted intersection of the identifier sets of the sequences,
enumerated along the first sequence. -/
def specIntersection {α : Type} (pid : α → Int) : List (List α) → List Int
  | [] => []
  | s :: rest =>
    (s.map pid).filter (fun i => rest.all (fun l => l.any (fun x => pid x == i)))

/-- Full traversal of a union set built over the user-order sequences
SS (union_set::begin, lines 435-441, runs the iterator constructor on
the begin cursors; the parameter pack order puts the LAST sequence at
max_index, hence the reversal).  Produces the identifier and view at
every positioned state. -/
def unionTraverseFull {α : Type} (pid rawId : α → Int) (SS : List (List α)) :
    R (List (Int × List α)) :=
  let cs := SS.reverse
  let fs := 2 * totalLen cs + 2
  rbind (startState pid rawId fs cs) (fun s => emit pid (totalLen cs + 1) fs s)

/-- The identifier sequence of a full traversal. -/
def unionTraverse {α : Type} (pid rawId : α → Int) (SS : List (List α)) : R (List Int) :=
  rbind (unionTraverseFull pid rawId SS) (fun out => .ok (out.map Prod.fst))

/-- Number of operator++ calls of a full traversal from begin() to
end(). -/
def unionSteps {α : Type} (pid rawId : α → Int) (SS : List (List α)) : R Nat :=
  let cs := SS.reverse
  let fs := 2 * totalLen cs + 2
  rbind (startState pid rawId fs cs) (fun s => stepsToEnd pid (totalLen cs + 1) fs s)

/-- union_set::find (lines 427-433): run the point lookup on every
sequence and construct the iterator from the resulting cursor
pairs. -/
def findIter {α : Type} (pid rawId : α → Int) (i : Int) (SS : List (List α)) :
    R (Int × List (List α)) :=
  let cs := (SS.map (seqFind pid i)).reverse
  startState pid rawId (2 * totalLen cs + 2) cs

/-- A sequence sorted strictly ascending by identifier. -/
def SortedBy {α : Type} (pid : α → Int) (l : List α) : Prop :=
  List.Pairwise (fun a b => pid a < pid b) l

/-- The identifier i is present in every sequence of the list. -/
def AllHave {α : Type} (pid : α → Int) (cs : List (List α)) (i : Int) : Prop :=
  ∀ l ∈ cs, ∃ x ∈ l, pid x = i

instance {α : Type} (pid : α → Int) (cs : List (List α)) (i : Int) :
    Decidable (AllHave pid cs i) :=
  inferInstanceAs (Decidable (∀ l ∈ cs, ∃ x ∈ l, pid x = i))

instance {α : Type} (pid : α → Int) (l : List α) : Decidable (SortedBy pid l) :=
  inferInstanceAs (Decidable (List.Pairwise _ l))

/-- Modelled from the words of the specification, for the refinement
claim about single-sequence degeneration: iterating one sequence
directly with its own cursor visits every record in sequence order;
each step exposes the identifier of the record and the record
itself. -/
def specDirectPassThrough {α : Type} (pid : α → Int) (S : List α) : List (Int × List α) :=
  S.map (fun x => (pid x, [x]))

/-- The states of a Multiway Intersection Iterator reachable from a
construction over the cursor pairs cs₀: the state built by the
constructor, and every state obtained from a reachable one by
operator++. -/
inductive Reached {α : Type} (pid rawId : α → Int) (fs : Nat) (cs₀ : List (List α)) :
    Int × List (List α) → Prop where
  | start {s} : startState pid rawId fs cs₀ = .ok s → Reached pid rawId fs cs₀ s
  | step {s t} : Reached pid rawId fs cs₀ s → advanceStep pid fs s = .ok t →
      Reached pid rawId fs cs₀ t

/-
  Basic lemmas about the embedding.
-/

section Lemmas

variable {α : Type} (pid : α → Int)

theorem allHave_cons {l : List α} {ls : List (List α)} {i : Int} :
    AllHave pid (l :: ls) i ↔ (∃ x ∈ l, pid x = i) ∧ AllHave pid ls i := by
  simp [AllHave]

theorem allHave_reverse {cs : List (List α)} {i : Int} :
    AllHave pid cs.reverse i ↔ AllHave pid cs i := by
  simp [AllHave]

theorem endCursors_eq_replicate (cs : List (List α)) :
    endCursors cs = List.replicate cs.length ([] : List α) := by
  induction cs with
  | nil => rfl
  | cons l ls ih =>
    simp only [endCursors, List.map_cons, List.length_cons, List.replicate] at ih ⊢
    rw [ih]

theorem isEnd_endCursors (cs : List (List α)) : isEnd (endCursors cs) = true := by
  simp [isEnd, endCursors]

theorem isEnd_iff {cs : List (List α)} : isEnd cs = true ↔ ∀ l ∈ cs, l = [] := by
  simp [isEnd, List.isEmpty_iff]

theorem not_allHave_endCursors {cs : List (List α)} (hcs : cs ≠ []) (i : Int) :
    ¬ AllHave pid (endCursors cs) i := by
  intro h
  match cs with
  | l :: ls =>
    rcases (allHave_cons pid).1 h with ⟨⟨x, hx, _⟩, _⟩
    exact absurd hx (List.not_mem_nil x)

theorem forall₂_suffix_refl (cs : List (List α)) :
    List.Forall₂ (fun a b => a.IsSuffix b) cs cs := by
  induction cs with
  | nil => exact List.Forall₂.nil
  | cons l ls ih => exact List.Forall₂.cons (List.suffix_refl l) ih

theorem forall₂_suffix_trans {cs₁ cs₂ cs₃ : List (List α)}
    (h₁ : List.Forall₂ (fun a b => a.IsSuffix b) cs₁ cs₂)
    (h₂ : List.Forall₂ (fun a b => a.IsSuffix b) cs₂ cs₃) :
    List.Forall₂ (fun a b => a.IsSuffix b) cs₁ cs₃ := by
  induction h₁ generalizing cs₃ with
  | nil => cases h₂; exact List.Forall₂.nil
  | cons h t ih =>
    cases h₂ with
    | cons h' t' => exact List.Forall₂.cons (h.trans h') (ih t')

theorem forall₂_suffix_endCursors (cs : List (List α)) :
    List.Forall₂ (fun (a b : List α) => a.IsSuffix b) (endCursors cs) cs := by
  induction cs with
  | nil => exact List.Forall₂.nil
  | cons l ls ih => exact List.Forall₂.cons (List.nil_suffix) ih

theorem forall₂_suffix_totalLen_le {cs₁ cs₂ : List (List α)}
    (h : List.Forall₂ (fun a b => a.IsSuffix b) cs₁ cs₂) :
    totalLen cs₁ ≤ totalLen cs₂ := by
  induction h with
  | nil => exact le_refl _
  | cons h t ih =>
    simp only [totalLen, List.map_cons, List.sum_cons] at ih ⊢
    exact Nat.add_le_add h.length_le ih

theorem forall₂_suffix_eq_of_totalLen {cs₁ cs₂ : List (List α)}
    (h : List.Forall₂ (fun a b => a.IsSuffix b) cs₁ cs₂)
    (hlen : totalLen cs₂ ≤ totalLen cs₁) : cs₁ = cs₂ := by
  induction h with
  | nil => rfl
  | cons h t ih =>
    have h1 := h.length_le
    have h2 := forall₂_suffix_totalLen_le t
    simp only [totalLen, List.map_cons, List.sum_cons] at hlen h2
    have hl : _ := h.eq_of_length (Nat.le_antisymm h1 (by omega))
    rw [hl, ih (by simp only [totalLen]; omega)]

theorem sortedBy_suffix {l l' : List α} (h : l'.IsSuffix l) (hs : SortedBy pid l) :
    SortedBy pid l' :=
  hs.sublist h.sublist

/-- Two strictly sorted integer lists with the same members are equal. -/
theorem sorted_ext : ∀ {L₁ L₂ : List Int}, L₁.Pairwise (· < ·) → L₂.Pairwise (· < ·) →
    (∀ i, i ∈ L₁ ↔ i ∈ L₂) → L₁ = L₂
  | [], L₂, _, _, h => by
    symm
    rw [List.eq_nil_iff_forall_not_mem]
    intro a ha
    exact absurd ((h a).2 ha) (List.not_mem_nil a)
  | a :: t, [], _, _, h => by
    exact absurd ((h a).1 (List.mem_cons_self a t)) (List.not_mem_nil a)
  | a :: t, b :: t₂, h₁, h₂, h => by
    rcases List.pairwise_cons.1 h₁ with ⟨ha, ht⟩
    rcases List.pairwise_cons.1 h₂ with ⟨hb, ht₂⟩
    have hab : a = b := by
      rcases List.mem_cons.1 ((h a).1 (List.mem_cons_self a t)) with h' | h'
      · exact h'
      · have hba : b < a := hb _ h'
        rcases List.mem_cons.1 ((h b).2 (List.mem_cons_self b t₂)) with h'' | h''
        · exact h''.symm
        · exact absurd (lt_trans (ha _ h'') hba) (lt_irrefl a)
    subst hab
    have htt : t = t₂ := by
      refine sorted_ext ht ht₂ (fun i => ⟨fun hi => ?_, fun hi => ?_⟩)
      · rcases List.mem_cons.1 ((h i).1 (List.mem_cons_of_mem a hi)) with h' | h'
        · exact absurd (h' ▸ ha _ hi) (lt_irrefl a)
        · exact h'
      · rcases List.mem_cons.1 ((h i).2 (List.mem_cons_of_mem a hi)) with h' | h'
        · exact absurd (h' ▸ hb _ hi) (lt_irrefl a)
        · exact h'
    rw [htt]

/-- A failing catch-up means every remaining record of the cursor has
an identifier below the running maximum. -/
theorem catchUp_none {m : Int} : ∀ {xs : List α} {x : α},
    catchUp pid m x xs = none → ∀ e ∈ x :: xs, pid e < m
  | [], x => by
    intro h e he
    simp only [catchUp] at h
    by_cases hx : pid x < m
    · simp only [List.mem_singleton] at he
      exact he ▸ hx
    · simp [hx] at h
  | y :: ys, x => by
    intro h e he
    simp only [catchUp] at h
    by_cases hx : pid x < m
    · simp only [if_pos hx] at h
      rcases List.mem_cons.1 he with rfl | he'
      · exact hx
      · exact catchUp_none h e he'
    · simp [hx] at h

/-- A successful catch-up stops at the first record whose identifier
reaches the running maximum: the new cursor is a suffix of the old
one, its current record has identifier at least the maximum, and no
record with identifier at least the maximum is skipped. -/
theorem catchUp_some {m : Int} : ∀ {xs : List α} {x y : α} {ys : List α},
    catchUp pid m x xs = some (y, ys) →
    (y :: ys).IsSuffix (x :: xs) ∧ m ≤ pid y ∧
      ∀ e ∈ x :: xs, m ≤ pid e → e ∈ y :: ys
  | [], x, y, ys => by
    intro h
    simp only [catchUp] at h
    by_cases hx : pid x < m
    · simp [hx] at h
    · simp only [if_neg hx, Option.some.injEq, Prod.mk.injEq] at h
      rcases h with ⟨rfl, rfl⟩
      exact ⟨List.suffix_refl _, not_lt.1 hx, fun e he _ => he⟩
  | z :: zs, x, y, ys => by
    intro h
    simp only [catchUp] at h
    by_cases hx : pid x < m
    · simp only [if_pos hx] at h
      rcases catchUp_some h with ⟨hsuf, hy, hkeep⟩
      refine ⟨hsuf.trans (List.suffix_cons x (z :: zs)), hy, ?_⟩
      intro e he hme
      rcases List.mem_cons.1 he with rfl | he'
      · exact absurd hx (not_lt.2 hme)
      · exact hkeep e he' hme
    · simp only [if_neg hx, Option.some.injEq, Prod.mk.injEq] at h
      rcases h with ⟨rfl, rfl⟩
      exact ⟨List.suffix_refl _, not_lt.1 hx, fun e he _ => he⟩

/-- Specification of one advance_until pass over nonempty, sorted
cursors: it never touches the undefined branch, and its result is
exhausted (no identifier from the running maximum upwards is common
to all cursors), aligned (every cursor stops on a record with the
maximum as identifier, no common identifier from the maximum upwards
is lost), or a new maximum (cursors only advance, no common
identifier from the old maximum upwards is lost, and every remaining
common identifier is at least the new maximum). -/
theorem onePass_spec (m : Int) : ∀ (cs : List (List α)),
    (∀ l ∈ cs, l ≠ []) → (∀ l ∈ cs, SortedBy pid l) →
    ∃ pr, onePass pid m cs = some pr ∧
      (match pr with
       | .exhausted => ∀ i, m ≤ i → ¬ AllHave pid cs i
       | .aligned cs' =>
           List.Forall₂ (fun a b => a.IsSuffix b) cs' cs ∧
           (∀ l ∈ cs', ∃ z zs, l = z :: zs ∧ pid z = m) ∧
           (∀ i, m ≤ i → (AllHave pid cs i ↔ AllHave pid cs' i))
       | .newMax m' cs' => m < m' ∧
           List.Forall₂ (fun a b => a.IsSuffix b) cs' cs ∧
           (∀ l ∈ cs', l ≠ []) ∧
           (∀ i, m ≤ i → (AllHave pid cs i ↔ AllHave pid cs' i)) ∧
           (∀ i, m ≤ i → AllHave pid cs' i → m' ≤ i) ∧
           (∀ z zs ls₂, cs' = (z :: zs) :: ls₂ → m ≤ pid z ∧ pid z ≤ m'))
  | [] => by
    intro _ _
    refine ⟨.aligned [], rfl, List.Forall₂.nil, ?_, ?_⟩
    · intro l hl; exact absurd hl (List.not_mem_nil l)
    · intro i _; exact Iff.rfl
  | [] :: ls => by
    intro hne _
    exact absurd rfl (hne [] (List.mem_cons_self _ _))
  | (x :: xs) :: ls => by
    intro hne hs
    have hsx : SortedBy pid (x :: xs) := hs _ (List.mem_cons_self _ _)
    have hne' : ∀ l ∈ ls, l ≠ [] := fun l hl => hne l (List.mem_cons_of_mem _ hl)
    have hs' : ∀ l ∈ ls, SortedBy pid l := fun l hl => hs l (List.mem_cons_of_mem _ hl)
    cases hc : catchUp pid m x xs with
    | none =>
      refine ⟨.exhausted, by simp only [onePass, hc], ?_⟩
      intro i hi hall
      rcases (allHave_cons pid).1 hall with ⟨⟨e, he, hei⟩, _⟩
      exact absurd (hei ▸ catchUp_none pid hc e he) (not_lt.2 hi)
    | some p =>
      obtain ⟨y, ys⟩ := p
      rcases catchUp_some pid hc with ⟨hsuf, hy, hkeep⟩
      have hsy : SortedBy pid (y :: ys) := sortedBy_suffix pid hsuf hsx
      have htrans : ∀ i, m ≤ i →
          (AllHave pid ((x :: xs) :: ls) i ↔ AllHave pid ((y :: ys) :: ls) i) := by
        intro i hi
        rw [allHave_cons, allHave_cons]
        constructor
        · rintro ⟨⟨e, he, rfl⟩, hrest⟩
          exact ⟨⟨e, hkeep e he hi, rfl⟩, hrest⟩
        · rintro ⟨⟨e, he, rfl⟩, hrest⟩
          exact ⟨⟨e, hsuf.sublist.subset he, rfl⟩, hrest⟩
      by_cases hlt : m < pid y
      · refine ⟨.newMax (pid y) ((y :: ys) :: ls), by simp only [onePass, hc, if_pos hlt], ?_⟩
        refine ⟨hlt, List.Forall₂.cons hsuf (forall₂_suffix_refl ls), ?_, htrans, ?_, ?_⟩
        · intro l hl
          rcases List.mem_cons.1 hl with rfl | hl'
          · exact List.cons_ne_nil y ys
          · exact hne' l hl'
        · intro i hi hall
          rcases (allHave_cons pid).1 hall with ⟨⟨e, he, hei⟩, _⟩
          rcases List.mem_cons.1 he with rfl | he'
          · exact le_of_eq hei
          · exact le_of_lt (hei ▸ (List.pairwise_cons.1 hsy).1 e he')
        · intro z zs ls₂ heq
          injection heq with h1 _
          injection h1 with h2 _
          exact h2 ▸ ⟨hy, le_refl _⟩
      · have hym : pid y = m := le_antisymm (not_lt.1 hlt) hy
        rcases onePass_spec m ls hne' hs' with ⟨pr', hpr', hspec'⟩
        cases pr' with
        | exhausted =>
          refine ⟨.exhausted, by simp only [onePass, hc, if_neg hlt, hpr'], ?_⟩
          intro i hi hall
          exact hspec' i hi ((allHave_cons pid).1 hall).2
        | aligned ls' =>
          rcases hspec' with ⟨hsuf', hheads', htrans'⟩
          refine ⟨.aligned ((y :: ys) :: ls'), by simp only [onePass, hc, if_neg hlt, hpr'], ?_⟩
          refine ⟨List.Forall₂.cons hsuf hsuf', ?_, ?_⟩
          · intro l hl
            rcases List.mem_cons.1 hl with rfl | hl'
            · exact ⟨y, ys, rfl, hym⟩
            · exact hheads' l hl'
          · intro i hi
            rw [htrans i hi, allHave_cons, allHave_cons, htrans' i hi]
        | newMax m' ls' =>
          rcases hspec' with ⟨hm', hsuf', hne'', htrans', hbound', _⟩
          refine ⟨.newMax m' ((y :: ys) :: ls'), by simp only [onePass, hc, if_neg hlt, hpr'], ?_⟩
          refine ⟨hm', List.Forall₂.cons hsuf hsuf', ?_, ?_, ?_, ?_⟩
          · intro l hl
            rcases List.mem_cons.1 hl with rfl | hl'
            · exact List.cons_ne_nil y ys
            · exact hne'' l hl'
          · intro i hi
            rw [htrans i hi, allHave_cons, allHave_cons, htrans' i hi]
          · intro i hi hall
            exact hbound' i hi ((allHave_cons pid).1 hall).2
          · intro z zs ls₂ heq
            injection heq with h1 _
            injection h1 with h2 _
            exact h2 ▸ ⟨hy, hym ▸ le_of_lt hm'⟩

theorem sorted_of_forall₂_suffix {cs' cs : List (List α)}
    (h : List.Forall₂ (fun a b => a.IsSuffix b) cs' cs)
    (hs : ∀ l ∈ cs, SortedBy pid l) : ∀ l ∈ cs', SortedBy pid l := by
  induction h with
  | nil => intro l hl; exact absurd hl (List.not_mem_nil l)
  | cons h t ih =>
    intro l hl
    rcases List.mem_cons.1 hl with rfl | hl'
    · exact sortedBy_suffix pid h (hs _ (List.mem_cons_self _ _))
    · exact ih (fun l' hl' => hs l' (List.mem_cons_of_mem _ hl')) l hl'

theorem endCursors_congr {cs' cs : List (List α)} (h : cs'.length = cs.length) :
    endCursors cs' = endCursors cs := by
  rw [endCursors_eq_replicate, endCursors_eq_replicate, h]

/-- Termination measure of the synchronization loop: twice the number
of remaining records, plus one when the driver record has not yet
fallen behind the running maximum. -/
def syncMeasure (pid : α → Int) (m : Int) (cs : List (List α)) : Nat :=
  2 * totalLen cs +
    (match cs with
     | (z :: _) :: _ => if m ≤ pid z then 1 else 0
     | _ => 0)

theorem syncMeasure_le (m : Int) (cs : List (List α)) :
    syncMeasure pid m cs ≤ 2 * totalLen cs + 1 := by
  have : (match cs with
     | ((z : α) :: _) :: _ => if m ≤ pid z then 1 else 0
     | _ => 0) ≤ 1 := by
    match cs with
    | [] => exact Nat.zero_le 1
    | [] :: _ => exact Nat.zero_le 1
    | (z :: _) :: _ => by_cases h : m ≤ pid z <;> simp [h]
  simp only [syncMeasure]
  omega

theorem syncLoop_spec_aux : ∀ (fuel : Nat) (m : Int) (cs : List (List α)),
    cs ≠ [] → (∀ l ∈ cs, l ≠ []) → (∀ l ∈ cs, SortedBy pid l) →
    (∀ z zs ls₂, cs = (z :: zs) :: ls₂ → pid z ≤ m) →
    syncMeasure pid m cs < fuel →
    ∃ mr csr, syncLoop pid fuel m cs = .ok (mr, csr) ∧
      List.Forall₂ (fun a b => a.IsSuffix b) csr cs ∧ m ≤ mr ∧
      ((csr = endCursors cs ∧ ∀ i, m ≤ i → ¬ AllHave pid cs i) ∨
       ((∀ l ∈ csr, ∃ z zs, l = z :: zs ∧ pid z = mr) ∧
        (∀ i, m ≤ i → (AllHave pid cs i ↔ (mr ≤ i ∧ AllHave pid csr i)))))
  | 0, m, cs => by
    intro _ _ _ _ hfuel
    exact absurd hfuel (Nat.not_lt_zero _)
  | fuel + 1, m, cs => by
    intro hcs hne hs hhead hfuel
    rcases onePass_spec pid m cs hne hs with ⟨pr, hpr, hspec⟩
    cases pr with
    | exhausted =>
      refine ⟨m, endCursors cs, by simp only [syncLoop, hpr], ?_⟩
      exact ⟨forall₂_suffix_endCursors cs, le_refl m, Or.inl ⟨rfl, hspec⟩⟩
    | aligned cs' =>
      rcases hspec with ⟨hsuf, hheads, htrans⟩
      refine ⟨m, cs', by simp only [syncLoop, hpr], hsuf, le_refl m, Or.inr ⟨hheads, ?_⟩⟩
      intro i hi
      rw [htrans i hi]
      exact ⟨fun h => ⟨hi, h⟩, fun h => h.2⟩
    | newMax m' cs' =>
      rcases hspec with ⟨hm', hsuf, hne', htrans, hbound, hheadm⟩
      have hlen := hsuf.length_eq
      have hcs' : cs' ≠ [] := by
        intro h
        rw [h] at hlen
        exact hcs (List.length_eq_zero.1 hlen.symm)
      have hs' := sorted_of_forall₂_suffix pid hsuf hs
      have hhead' : ∀ z zs ls₂, cs' = (z :: zs) :: ls₂ → pid z ≤ m' :=
        fun z zs ls₂ h => (hheadm z zs ls₂ h).2
      have hle := forall₂_suffix_totalLen_le hsuf
      have hfuel' : syncMeasure pid m' cs' < fuel := by
        rcases Nat.lt_or_ge (totalLen cs') (totalLen cs) with hlt | hge
        · have h1 := syncMeasure_le pid m' cs'
          have h2 : 2 * totalLen cs ≤ syncMeasure pid m cs := Nat.le_add_right _ _
          omega
        · have heq : cs' = cs :=
            forall₂_suffix_eq_of_totalLen hsuf hge
          obtain ⟨l, ls, rfl⟩ : ∃ l ls, cs = l :: ls := by
            match cs, hcs with
            | l :: ls, _ => exact ⟨l, ls, rfl⟩
          obtain ⟨z, zs, rfl⟩ : ∃ z zs, l = z :: zs := by
            match l, hne l (List.mem_cons_self _ _) with
            | z :: zs, _ => exact ⟨z, zs, rfl⟩
          rw [heq]
          have h1 : pid z ≤ m := hhead z zs ls rfl
          have h2 : m ≤ pid z := (hheadm z zs ls heq).1
          have hmb : syncMeasure pid m ((z :: zs) :: ls) =
              2 * totalLen ((z :: zs) :: ls) + 1 := by
            simp only [syncMeasure, if_pos h2]
          have hmb' : syncMeasure pid m' ((z :: zs) :: ls) =
              2 * totalLen ((z :: zs) :: ls) := by
            have h3 : ¬ m' ≤ pid z := by omega
            simp only [syncMeasure, if_neg h3]
            omega
          omega
      rcases syncLoop_spec_aux fuel m' cs' hcs' hne' hs' hhead' hfuel' with
        ⟨mr, csr, hrun, hsufr, hmr, hres⟩
      refine ⟨mr, csr, by simp only [syncLoop, hpr]; exact hrun,
        forall₂_suffix_trans hsufr hsuf, le_of_lt (lt_of_lt_of_le hm' hmr), ?_⟩
      rcases hres with ⟨hend, hnall⟩ | ⟨hheads, htrans'⟩
      · refine Or.inl ⟨hend.trans (endCursors_congr hlen), ?_⟩
        intro i hi hall
        by_cases him : m' ≤ i
        · exact hnall i him ((htrans i hi).1 hall)
        · exact him (hbound i hi ((htrans i hi).1 hall))
      · refine Or.inr ⟨hheads, ?_⟩
        intro i hi
        by_cases him : m' ≤ i
        · rw [htrans i hi, htrans' i him]
        · constructor
          · intro hall
            exact absurd (hbound i hi ((htrans i hi).1 hall)) him
          · rintro ⟨hmri, _⟩
            exact absurd (le_trans hmr hmri) him

/-- Specification of operator++ from a state whose driver cursor
holds record x, with at least two participating sets: it succeeds and
yields either the collective end (no identifier beyond the one of x
is common to all cursors) or a positioned state aligned on the least
common identifier beyond the one of x. -/
theorem advanceStep_spec (fuel : Nat) (m : Int) (x : α) (d : List α) (rest : List (List α))
    (hrest : rest ≠ []) (hne : ∀ l ∈ rest, l ≠ [])
    (hsd : SortedBy pid (x :: d)) (hsrest : ∀ l ∈ rest, SortedBy pid l)
    (hfuel : 2 * totalLen ((x :: d) :: rest) + 2 ≤ fuel) :
    ∃ mr csr, advanceStep pid fuel (m, (x :: d) :: rest) = .ok (mr, csr) ∧
      List.Forall₂ (fun a b => a.IsSuffix b) csr (d :: rest) ∧
      ((csr = endCursors (d :: rest) ∧
          ∀ i, pid x < i → ¬ AllHave pid ((x :: d) :: rest) i) ∨
       ((∀ l ∈ csr, ∃ z zs, l = z :: zs ∧ pid z = mr) ∧ pid x < mr ∧
        (∀ i, pid x < i →
          (AllHave pid ((x :: d) :: rest) i ↔ (mr ≤ i ∧ AllHave pid csr i))))) := by
  obtain ⟨r, rs, rfl⟩ : ∃ r rs, rest = r :: rs := by
    match rest, hrest with
    | r :: rs, _ => exact ⟨r, rs, rfl⟩
  cases d with
  | nil =>
    refine ⟨m, endCursors ([] :: r :: rs), rfl, ?_⟩
    refine ⟨forall₂_suffix_endCursors _, Or.inl ⟨rfl, ?_⟩⟩
    intro i hi hall
    rcases (allHave_cons pid).1 hall with ⟨⟨e, he, hei⟩, _⟩
    rcases List.mem_cons.1 he with rfl | he'
    · exact absurd hei (by omega)
    · exact absurd he' (List.not_mem_nil e)
  | cons y ys =>
    have hxy : pid x < pid y := (List.pairwise_cons.1 hsd).1 y (List.mem_cons_self _ _)
    have hsy : SortedBy pid (y :: ys) :=
      sortedBy_suffix pid (List.suffix_cons x (y :: ys)) hsd
    have hIdBound : ∀ i, pid x < i → ∀ e ∈ y :: ys, pid e = i → pid y ≤ i := by
      intro i _ e he hei
      rcases List.mem_cons.1 he with rfl | he'
      · exact le_of_eq hei
      · exact le_of_lt (hei ▸ (List.pairwise_cons.1 hsy).1 e he')
    have hrun := syncLoop_spec_aux pid fuel (pid y) ((y :: ys) :: r :: rs)
      (List.cons_ne_nil _ _)
      (by
        intro l hl
        rcases List.mem_cons.1 hl with rfl | hl'
        · exact List.cons_ne_nil y ys
        · exact hne l hl')
      (by
        intro l hl
        rcases List.mem_cons.1 hl with rfl | hl'
        · exact hsy
        · exact hsrest l hl')
      (by
        intro z zs ls₂ heq
        injection heq with h1 _
        injection h1 with h2 _
        exact h2 ▸ le_refl _)
      (by
        have h1 := syncMeasure_le pid (pid y) ((y :: ys) :: r :: rs)
        simp only [totalLen, List.map_cons, List.sum_cons, List.length_cons] at h1 hfuel ⊢
        omega)
    rcases hrun with ⟨mr, csr, hrun, hsufr, hmr, hres⟩
    refine ⟨mr, csr, hrun, hsufr, ?_⟩
    rcases hres with ⟨hend, hnall⟩ | ⟨hheads, htrans'⟩
    · refine Or.inl ⟨hend, ?_⟩
      intro i hi hall
      rcases (allHave_cons pid).1 hall with ⟨⟨e, he, hei⟩, hrest'⟩
      have he' : e ∈ y :: ys := by
        rcases List.mem_cons.1 he with rfl | he'
        · exact absurd hei (by omega)
        · exact he'
      have hyi : pid y ≤ i := hIdBound i hi e he' hei
      exact hnall i hyi ((allHave_cons pid).2 ⟨⟨e, he', hei⟩, hrest'⟩)
    · refine Or.inr ⟨hheads, lt_of_lt_of_le hxy hmr, ?_⟩
      intro i hi
      constructor
      · intro hall
        rcases (allHave_cons pid).1 hall with ⟨⟨e, he, hei⟩, hrest'⟩
        have he' : e ∈ y :: ys := by
          rcases List.mem_cons.1 he with rfl | he'
          · exact absurd hei (by omega)
          · exact he'
        have hyi : pid y ≤ i := hIdBound i hi e he' hei
        exact (htrans' i hyi).1 ((allHave_cons pid).2 ⟨⟨e, he', hei⟩, hrest'⟩)
      · rintro ⟨hmri, hallr⟩
        have hyi : pid y ≤ i := le_trans hmr hmri
        have hall' := (htrans' i hyi).2 ⟨hmri, hallr⟩
        rcases (allHave_cons pid).1 hall' with ⟨⟨e, he, hei⟩, hrest'⟩
        exact (allHave_cons pid).2 ⟨⟨e, List.mem_cons_of_mem x he, hei⟩, hrest'⟩

theorem emit_end {ft fs : Nat} {m : Int} {cs : List (List α)}
    (hft : 0 < ft) (h : isEnd cs = true) : emit pid ft fs (m, cs) = .ok [] := by
  match ft, hft with
  | ft + 1, _ => simp [emit, h]

/-- Single-set traversal: the iterator walks the one cursor from its
current position to the end, one record per step, with no checks and
no synchronization (the compiled-out single-set path). -/
theorem emit_single : ∀ (l : List α) (ft fs : Nat) (m : Int), l.length < ft →
    emit pid ft fs (m, [l]) = .ok (l.map (fun z => (pid z, [z])))
  | l, 0, fs, m => by
    intro h
    exact absurd h (Nat.not_lt_zero _)
  | [], ft + 1, fs, m => by
    intro _
    rfl
  | x :: xs, ft + 1, fs, m => by
    intro h
    have ih := emit_single xs ft fs m (Nat.lt_of_succ_lt_succ h)
    show rbind (advanceStep pid fs (m, [x :: xs])) (fun s' =>
      rbind (emit pid ft fs s') (fun out => .ok ((pid x, viewAt [x :: xs]) :: out))) = _
    have hadv : advanceStep pid fs (m, [x :: xs]) = .ok (m, [xs]) := rfl
    rw [hadv, rbind_ok, ih, rbind_ok]
    rfl

/-- Traversal from a positioned state with at least two sets: it
produces, in strictly increasing order, exactly the identifiers from
the aligned one upwards that are present in every cursor, starting
with the aligned identifier and its view. -/
theorem emit_spec : ∀ (ft fs : Nat) (m : Int) (x : α) (xs : List α) (rest : List (List α)),
    rest ≠ [] →
    (∀ l ∈ (x :: xs) :: rest, ∃ z zs, l = z :: zs ∧ pid z = m) →
    (∀ l ∈ (x :: xs) :: rest, SortedBy pid l) →
    xs.length + 1 < ft →
    2 * totalLen ((x :: xs) :: rest) + 2 ≤ fs →
    ∃ out, emit pid ft fs (m, (x :: xs) :: rest) = .ok out ∧
      (∀ i, i ∈ out.map Prod.fst ↔ (m ≤ i ∧ AllHave pid ((x :: xs) :: rest) i)) ∧
      (out.map Prod.fst).Pairwise (· < ·) ∧
      ∃ tl, out = (m, viewAt ((x :: xs) :: rest)) :: tl
  | 0, fs, m, x, xs, rest => by
    intro _ _ _ hft _
    exact absurd hft (Nat.not_lt_zero _)
  | ft + 1, fs, m, x, xs, rest => by
    intro hrest hpos hs hft hfs
    have hxm : pid x = m := by
      rcases hpos _ (List.mem_cons_self _ _) with ⟨z, zs, heq, hz⟩
      injection heq with h1 _
      exact h1 ▸ hz
    have hposm : AllHave pid ((x :: xs) :: rest) m := by
      intro l hl
      rcases hpos l hl with ⟨z, zs, rfl, hz⟩
      exact ⟨z, List.mem_cons_self _ _, hz⟩
    have hstep := advanceStep_spec pid fs m x xs rest hrest
      (by
        intro l hl
        rcases hpos l (List.mem_cons_of_mem _ hl) with ⟨z, zs, rfl, _⟩
        exact List.cons_ne_nil z zs)
      (hs _ (List.mem_cons_self _ _))
      (fun l hl => hs l (List.mem_cons_of_mem _ hl))
      hfs
    rcases hstep with ⟨mr, csr, hadv, hsufr, hres⟩
    have hunfold : emit pid (ft + 1) fs (m, (x :: xs) :: rest) =
        rbind (emit pid ft fs (mr, csr))
          (fun out => .ok ((pid x, viewAt ((x :: xs) :: rest)) :: out)) := by
      show rbind (advanceStep pid fs (m, (x :: xs) :: rest)) (fun s' =>
        rbind (emit pid ft fs s')
          (fun out => .ok ((pid x, viewAt ((x :: xs) :: rest)) :: out))) = _
      rw [hadv, rbind_ok]
    rcases hres with ⟨hend, hnall⟩ | ⟨hheads, hmlt, htrans⟩
    · have hemit : emit pid ft fs (mr, csr) = .ok [] := by
        refine emit_end pid (by omega) ?_
        rw [hend]
        exact isEnd_endCursors _
      refine ⟨[(m, viewAt ((x :: xs) :: rest))], ?_, ?_, ?_, ⟨[], rfl⟩⟩
      · rw [hunfold, hemit, rbind_ok, hxm]
      · intro i
        simp only [List.map_cons, List.map_nil, List.mem_singleton]
        constructor
        · rintro rfl
          exact ⟨le_refl _, hposm⟩
        · rintro ⟨hmi, hall⟩
          rcases lt_or_eq_of_le hmi with hlt | heq
          · exact absurd hall (hnall i (hxm ▸ hlt))
          · exact heq.symm
      · simp
    · have hlen := hsufr.length_eq
      obtain ⟨d', rest', rfl⟩ : ∃ d' rest', csr = d' :: rest' := by
        match csr, hlen with
        | d' :: rest', _ => exact ⟨d', rest', rfl⟩
      obtain ⟨z, zs, rfl, hz⟩ : ∃ z zs, d' = z :: zs ∧ pid z = mr := by
        rcases hheads _ (List.mem_cons_self _ _) with ⟨z, zs, rfl, hz⟩
        exact ⟨z, zs, rfl, hz⟩
      have hrest' : rest' ≠ [] := by
        intro hempty
        rw [hempty] at hlen
        simp only [List.length_cons, List.length_nil] at hlen
        have : rest.length = 0 := by omega
        exact hrest (List.length_eq_zero.1 this)
      have hsufd : (z :: zs).IsSuffix xs := by
        cases hsufr with
        | cons h _ => exact h
      have ih := emit_spec ft fs mr z zs rest' hrest' hheads
        (sorted_of_forall₂_suffix pid hsufr
          (by
            intro l hl
            rcases List.mem_cons.1 hl with heq | hl'
            · rw [heq]
              exact sortedBy_suffix pid (List.suffix_cons x xs) (hs _ (List.mem_cons_self _ _))
            · exact hs l (List.mem_cons_of_mem _ hl')))
        (by
          have := hsufd.length_le
          simp only [List.length_cons] at this ⊢
          omega)
        (by
          have h1 := forall₂_suffix_totalLen_le hsufr
          simp only [totalLen, List.map_cons, List.sum_cons, List.length_cons] at h1 hfs ⊢
          omega)
      rcases ih with ⟨out', hemit', hmemb', hpair', htl'⟩
      refine ⟨(m, viewAt ((x :: xs) :: rest)) :: out', ?_, ?_, ?_, ⟨out', rfl⟩⟩
      · rw [hunfold, hemit', rbind_ok, hxm]
      · intro i
        simp only [List.map_cons, List.mem_cons]
        rw [hmemb' i]
        constructor
        · rintro (rfl | ⟨hmri, hall⟩)
          · exact ⟨le_refl i, hposm⟩
          · have hmi : m < i := lt_of_lt_of_le (hxm ▸ hmlt) hmri
            exact ⟨le_of_lt hmi, ((htrans i (hxm ▸ hmi)).2 ⟨hmri, hall⟩)⟩
        · rintro ⟨hmi, hall⟩
          rcases lt_or_eq_of_le hmi with hlt | heq
          · exact Or.inr ((htrans i (hxm ▸ hlt)).1 hall)
          · exact Or.inl heq.symm
      · simp only [List.map_cons]
        rw [List.pairwise_cons]
        refine ⟨?_, hpair'⟩
        intro j hj
        rcases (hmemb' j).1 hj with ⟨hmrj, _⟩
        exact lt_of_lt_of_le (hxm ▸ hmlt) hmrj

theorem dropWhile_head_false {p : α → Bool} : ∀ {l : List α} {x : α} {xs : List α},
    l.dropWhile p = x :: xs → p x = false := by
  intro l
  induction l with
  | nil =>
    intro x xs h
    exact absurd h (by simp [List.dropWhile])
  | cons a t ih =>
    intro x xs h
    cases hpa : p a with
    | true =>
      rw [List.dropWhile_cons, if_pos hpa] at h
      exact ih h
    | false =>
      rw [List.dropWhile_cons, if_neg (by simp [hpa])] at h
      injection h with h1 _
      exact h1 ▸ hpa

theorem seqFind_suffix (i : Int) (l : List α) : (seqFind pid i l).IsSuffix l := by
  unfold seqFind
  cases hd : l.dropWhile (fun x => decide (pid x < i)) with
  | nil => exact List.nil_suffix
  | cons x xs =>
    show (if pid x = i then x :: xs else []) <:+ l
    by_cases h : pid x = i
    · rw [if_pos h]
      exact hd ▸ List.dropWhile_suffix _
    · rw [if_neg h]
      exact List.nil_suffix

theorem seqFind_not_found {i : Int} {l : List α} (h : ¬ ∃ x ∈ l, pid x = i) :
    seqFind pid i l = [] := by
  unfold seqFind
  cases hd : l.dropWhile (fun x => decide (pid x < i)) with
  | nil => rfl
  | cons x xs =>
    show (if pid x = i then x :: xs else []) = []
    have hx : x ∈ l := (hd ▸ List.dropWhile_suffix _ : (x :: xs).IsSuffix l).sublist.subset
      (List.mem_cons_self _ _)
    have hxi : pid x ≠ i := fun he => h ⟨x, hx, he⟩
    rw [if_neg hxi]

theorem seqFind_found {i : Int} {l : List α} (hs : SortedBy pid l)
    (h : ∃ x ∈ l, pid x = i) : ∃ t ts, seqFind pid i l = t :: ts ∧ pid t = i := by
  rcases h with ⟨e, he, hei⟩
  unfold seqFind
  cases hd : l.dropWhile (fun x => decide (pid x < i)) with
  | nil =>
    have := List.dropWhile_eq_nil_iff.1 hd e he
    simp only [decide_eq_true_eq] at this
    omega
  | cons x xs =>
    have hsplit := List.takeWhile_append_dropWhile (fun x => decide (pid x < i)) l
    rw [hd] at hsplit
    have hemem : e ∈ x :: xs := by
      rw [← hsplit] at he
      rcases List.mem_append.1 he with h' | h'
      · have := List.mem_takeWhile_imp h'
        simp only [decide_eq_true_eq] at this
        omega
      · exact h'
    have hsx : SortedBy pid (x :: xs) :=
      sortedBy_suffix pid (hd ▸ List.dropWhile_suffix _) hs
    have hxlt : ¬ (pid x < i) := by
      have := dropWhile_head_false hd
      simp only [decide_eq_false_iff_not] at this
      exact this
    have hxi : pid x = i := by
      rcases List.mem_cons.1 hemem with rfl | he'
      · exact hei
      · have := (List.pairwise_cons.1 hsx).1 e he'
        omega
    refine ⟨x, xs, ?_, hxi⟩
    show (if pid x = i then x :: xs else []) = x :: xs
    rw [if_pos hxi]

/-- When every cursor is already positioned on a record carrying the
running maximum, the advance_until pass changes nothing. -/
theorem onePass_aligned_of_heads {m : Int} : ∀ (cs : List (List α)),
    (∀ l ∈ cs, ∃ z zs, l = z :: zs ∧ pid z = m) →
    onePass pid m cs = some (.aligned cs)
  | [] => fun _ => rfl
  | l :: ls => by
    intro h
    rcases h l (List.mem_cons_self _ _) with ⟨z, zs, rfl, hz⟩
    have hcu : catchUp pid m z zs = some (z, zs) := by
      unfold catchUp
      rw [if_neg (by omega)]
    have ih := onePass_aligned_of_heads ls (fun l hl => h l (List.mem_cons_of_mem _ hl))
    simp only [onePass, hcu, ih, if_neg (show ¬ m < pid z by omega)]

/-- Unfolding of the constructor with at least two sets. -/
theorem startState_two (rawId : α → Int) (fuel : Nat) (d : List α) (r : List α)
    (rs : List (List α)) :
    startState pid rawId fuel (d :: r :: rs) =
      (if (d :: r :: rs).any List.isEmpty = true then .ok (0, endCursors (d :: r :: rs))
       else
        match d with
        | [] => .ub
        | x :: _ =>
          match onePass pid (rawId x) (r :: rs) with
          | none => .ub
          | some .exhausted => .ok (rawId x, endCursors (d :: r :: rs))
          | some (.aligned rest') => .ok (rawId x, d :: rest')
          | some (.newMax m' rest') => advanceStep pid fuel (m', d :: rest')) := rfl

/-- Unfolding of the constructor with at least two sets and a
nonempty driver cursor. -/
theorem startState_two_cons (rawId : α → Int) (fuel : Nat) (x : α) (xs : List α)
    (r : List α) (rs : List (List α)) :
    startState pid rawId fuel ((x :: xs) :: r :: rs) =
      (if ((x :: xs) :: r :: rs).any List.isEmpty = true then
        .ok (0, endCursors ((x :: xs) :: r :: rs))
       else
        match onePass pid (rawId x) (r :: rs) with
        | none => .ub
        | some .exhausted => .ok (rawId x, endCursors ((x :: xs) :: r :: rs))
        | some (.aligned rest') => .ok (rawId x, (x :: xs) :: rest')
        | some (.newMax m' rest') => advanceStep pid fuel (m', (x :: xs) :: rest')) := rfl

theorem specIntersection_mem {SS : List (List α)} (hSS : SS ≠ []) (i : Int) :
    i ∈ specIntersection pid SS ↔ AllHave pid SS i := by
  match SS with
  | S :: rest =>
    simp only [specIntersection, List.mem_filter, List.mem_map, allHave_cons,
      List.all_eq_true, List.any_eq_true, beq_iff_eq]
    constructor
    · rintro ⟨⟨x, hx, rfl⟩, hall⟩
      exact ⟨⟨x, hx, rfl⟩, fun l hl => hall l hl⟩
    · rintro ⟨⟨x, hx, rfl⟩, hall⟩
      exact ⟨⟨x, hx, rfl⟩, fun l hl => hall l hl⟩

theorem specIntersection_sorted {SS : List (List α)} (hs : ∀ S ∈ SS, SortedBy pid S) :
    (specIntersection pid SS).Pairwise (· < ·) := by
  match SS with
  | [] => exact List.Pairwise.nil
  | S :: rest =>
    have h1 : (S.map pid).Pairwise (· < ·) :=
      List.pairwise_map.2 (hs S (List.mem_cons_self _ _))
    exact h1.filter _

/-- The number of advance steps to the end equals the number of
produced positions. -/
theorem stepsToEnd_eq : ∀ (ft fs : Nat) (s : Int × List (List α)) (out : List (Int × List α)),
    emit pid ft fs s = .ok out → stepsToEnd pid ft fs s = .ok out.length
  | 0, fs, s, out => by
    intro h
    exact absurd h (by simp [emit])
  | ft + 1, fs, (m, cs), out => by
    intro h
    by_cases hend : isEnd cs = true
    · have : out = [] := by
        simp only [emit, if_pos hend, R.ok.injEq] at h
        exact h.symm
      rw [this]
      simp [stepsToEnd, hend]
    · match cs, hend with
      | (x :: xs) :: rest, hend =>
        simp only [emit, if_neg hend] at h
        simp only [stepsToEnd, if_neg hend]
        cases hadv : advanceStep pid fs (m, (x :: xs) :: rest) with
        | ub => rw [hadv] at h; exact absurd h (by simp)
        | fuelOut => rw [hadv] at h; exact absurd h (by simp)
        | ok s' =>
          rw [hadv] at h
          simp only [rbind_ok] at h ⊢
          cases hrec : emit pid ft fs s' with
          | ub => rw [hrec] at h; exact absurd h (by simp)
          | fuelOut => rw [hrec] at h; exact absurd h (by simp)
          | ok out' =>
            rw [hrec] at h
            simp only [rbind_ok, R.ok.injEq] at h
            rw [stepsToEnd_eq ft fs s' out' hrec, rbind_ok, ← h]
            simp
      | [] :: rest, hend =>
        simp only [emit, if_neg hend] at h
        exact absurd h (by simp)
      | [], hend =>
        simp only [isEnd, List.all_nil] at hend
        exact absurd trivial hend

/-- Characterization of begin() followed by a full traversal over a
driver-first cursor list: the produced identifiers are exactly the
common identifiers of the cursors, in strictly increasing order. -/
theorem beginTraverse_spec : ∀ (cs : List (List α)), cs ≠ [] →
    (∀ l, cs = [l] → l ≠ []) → (∀ l ∈ cs, SortedBy pid l) →
    ∃ out, rbind (startState pid pid (2 * totalLen cs + 2) cs)
        (fun s => emit pid (totalLen cs + 1) (2 * totalLen cs + 2) s) = .ok out ∧
      (∀ i, i ∈ out.map Prod.fst ↔ AllHave pid cs i) ∧
      (out.map Prod.fst).Pairwise (· < ·)
  | [], h, _, _ => absurd rfl h
  | [d], _, h1, hsorted => by
    obtain ⟨x, xs, rfl⟩ : ∃ x xs, d = x :: xs := by
      match d, h1 d rfl with
      | x :: xs, _ => exact ⟨x, xs, rfl⟩
    have hstart : startState pid pid (2 * totalLen [x :: xs] + 2) [x :: xs] =
        .ok (pid x, [x :: xs]) := rfl
    have hemit := emit_single pid (x :: xs) (totalLen [x :: xs] + 1)
      (2 * totalLen [x :: xs] + 2) (pid x)
      (by simp [totalLen])
    have hfst : (Prod.fst ∘ fun z : α => (pid z, ([z] : List α))) = pid := rfl
    refine ⟨(x :: xs).map (fun z => (pid z, [z])), ?_, ?_, ?_⟩
    · rw [hstart, rbind_ok]
      exact hemit
    · intro i
      rw [List.map_map, hfst]
      simp only [AllHave, List.mem_singleton, List.mem_map]
      constructor
      · rintro ⟨z, hz, rfl⟩ l hl
        subst hl
        exact ⟨z, hz, rfl⟩
      · intro h
        rcases h (x :: xs) rfl with ⟨z, hz, hzi⟩
        exact ⟨z, hz, hzi⟩
    · rw [List.map_map, hfst]
      exact List.pairwise_map.2 (hsorted _ (List.mem_cons_self _ _))
  | d :: r :: rs, _, _, hsorted => by
    by_cases hempty : (d :: r :: rs).any List.isEmpty = true
    · have hstart : startState pid pid (2 * totalLen (d :: r :: rs) + 2) (d :: r :: rs) =
          .ok (0, endCursors (d :: r :: rs)) := by
        rw [startState_two, if_pos hempty]
      have hemit : emit pid (totalLen (d :: r :: rs) + 1) (2 * totalLen (d :: r :: rs) + 2)
          (0, endCursors (d :: r :: rs)) = .ok [] :=
        emit_end pid (by omega) (isEnd_endCursors _)
      refine ⟨[], ?_, ?_, List.Pairwise.nil⟩
      · rw [hstart, rbind_ok]
        exact hemit
      · intro i
        simp only [List.map_nil, List.not_mem_nil, false_iff]
        rcases List.any_eq_true.1 hempty with ⟨l, hl, hle⟩
        have hlnil : l = [] := List.isEmpty_iff.1 hle
        intro hall
        rcases hall l hl with ⟨z, hz, _⟩
        rw [hlnil] at hz
        exact List.not_mem_nil z hz
    · have hne : ∀ l ∈ d :: r :: rs, l ≠ [] := by
        intro l hl he
        exact hempty (List.any_eq_true.2 ⟨l, hl, by rw [he]; rfl⟩)
      obtain ⟨x, xs, rfl⟩ : ∃ x xs, d = x :: xs := by
        match d, hne d (List.mem_cons_self _ _) with
        | x :: xs, _ => exact ⟨x, xs, rfl⟩
      have hsd : SortedBy pid (x :: xs) := hsorted _ (List.mem_cons_self _ _)
      have hne' : ∀ l ∈ r :: rs, l ≠ [] := fun l hl => hne l (List.mem_cons_of_mem _ hl)
      have hs' : ∀ l ∈ r :: rs, SortedBy pid l :=
        fun l hl => hsorted l (List.mem_cons_of_mem _ hl)
      have hheadLe : ∀ i, AllHave pid ((x :: xs) :: r :: rs) i → pid x ≤ i := by
        intro i hall
        rcases hall _ (List.mem_cons_self _ _) with ⟨e, he, hei⟩
        rcases List.mem_cons.1 he with rfl | he'
        · exact le_of_eq hei
        · exact le_of_lt (hei ▸ (List.pairwise_cons.1 hsd).1 e he')
      rcases onePass_spec pid (pid x) (r :: rs) hne' hs' with ⟨pr, hpr, hspec⟩
      cases pr with
      | exhausted =>
        have hstart : startState pid pid (2 * totalLen ((x :: xs) :: r :: rs) + 2)
            ((x :: xs) :: r :: rs) = .ok (pid x, endCursors ((x :: xs) :: r :: rs)) := by
          rw [startState_two_cons, if_neg hempty, hpr]
        have hemit : emit pid (totalLen ((x :: xs) :: r :: rs) + 1)
            (2 * totalLen ((x :: xs) :: r :: rs) + 2)
            (pid x, endCursors ((x :: xs) :: r :: rs)) = .ok [] :=
          emit_end pid (by omega) (isEnd_endCursors _)
        refine ⟨[], ?_, ?_, List.Pairwise.nil⟩
        · rw [hstart, rbind_ok]
          exact hemit
        · intro i
          simp only [List.map_nil, List.not_mem_nil, false_iff]
          intro hall
          exact hspec i (hheadLe i hall)
            (fun l hl => hall l (List.mem_cons_of_mem _ hl))
      | aligned rest' =>
        rcases hspec with ⟨hsuf', hheads', htrans'⟩
        have hstart : startState pid pid (2 * totalLen ((x :: xs) :: r :: rs) + 2)
            ((x :: xs) :: r :: rs) = .ok (pid x, (x :: xs) :: rest') := by
          rw [startState_two_cons, if_neg hempty, hpr]
        have hrest' : rest' ≠ [] := by
          intro h
          have := hsuf'.length_eq
          rw [h] at this
          simp at this
        have hes := emit_spec pid (totalLen ((x :: xs) :: r :: rs) + 1)
          (2 * totalLen ((x :: xs) :: r :: rs) + 2) (pid x) x xs rest' hrest'
          (by
            intro l hl
            rcases List.mem_cons.1 hl with rfl | hl'
            · exact ⟨x, xs, rfl, rfl⟩
            · exact hheads' l hl')
          (by
            intro l hl
            rcases List.mem_cons.1 hl with heq | hl'
            · rw [heq]; exact hsd
            · exact sorted_of_forall₂_suffix pid hsuf' hs' l hl')
          (by
            simp only [totalLen, List.map_cons, List.sum_cons, List.length_cons]
            omega)
          (by
            have h1 := forall₂_suffix_totalLen_le hsuf'
            simp only [totalLen, List.map_cons, List.sum_cons, List.length_cons] at h1 ⊢
            omega)
        rcases hes with ⟨out, hemit, hmemb, hpair, _⟩
        refine ⟨out, ?_, ?_, hpair⟩
        · rw [hstart, rbind_ok]
          exact hemit
        · intro i
          rw [hmemb i]
          constructor
          · rintro ⟨hxi, hall⟩
            rw [allHave_cons] at hall ⊢
            exact ⟨hall.1, (htrans' i hxi).2 hall.2⟩
          · intro hall
            have hxi := hheadLe i hall
            rw [allHave_cons] at hall ⊢
            exact ⟨hxi, hall.1, (htrans' i hxi).1 hall.2⟩
      | newMax m' rest₁ =>
        rcases hspec with ⟨hm', hsuf₁, hne₁, htrans₁, hbound₁, _⟩
        have hstart : startState pid pid (2 * totalLen ((x :: xs) :: r :: rs) + 2)
            ((x :: xs) :: r :: rs) =
            advanceStep pid (2 * totalLen ((x :: xs) :: r :: rs) + 2)
              (m', (x :: xs) :: rest₁) := by
          rw [startState_two_cons, if_neg hempty, hpr]
        have hrest₁ : rest₁ ≠ [] := by
          intro h
          have := hsuf₁.length_eq
          rw [h] at this
          simp at this
        have hadvs := advanceStep_spec pid (2 * totalLen ((x :: xs) :: r :: rs) + 2)
          m' x xs rest₁ hrest₁ hne₁ hsd (sorted_of_forall₂_suffix pid hsuf₁ hs')
          (by
            have h1 := forall₂_suffix_totalLen_le hsuf₁
            simp only [totalLen, List.map_cons, List.sum_cons, List.length_cons] at h1 ⊢
            omega)
        rcases hadvs with ⟨mr, csr, hadv, hsufr, hres⟩
        have hchain : ∀ i, pid x < i →
            (AllHave pid ((x :: xs) :: r :: rs) i ↔ AllHave pid ((x :: xs) :: rest₁) i) := by
          intro i hi
          constructor
          · intro hall
            rw [allHave_cons] at hall ⊢
            exact ⟨hall.1, (htrans₁ i (le_of_lt hi)).1 hall.2⟩
          · intro hall
            rw [allHave_cons] at hall ⊢
            exact ⟨hall.1, (htrans₁ i (le_of_lt hi)).2 hall.2⟩
        have hgt : ∀ i, AllHave pid ((x :: xs) :: r :: rs) i → pid x < i := by
          intro i hall
          rcases lt_or_eq_of_le (hheadLe i hall) with h | h
          · exact h
          · have h2 : AllHave pid rest₁ (pid x) := by
              rw [← h] at hall
              exact (htrans₁ (pid x) (le_refl _)).1
                (fun l hl => hall l (List.mem_cons_of_mem _ hl))
            have := hbound₁ (pid x) (le_refl _) h2
            omega
        rcases hres with ⟨hendr, hnallr⟩ | ⟨hheadsr, hmltr, htransr⟩
        · have hemit : emit pid (totalLen ((x :: xs) :: r :: rs) + 1)
              (2 * totalLen ((x :: xs) :: r :: rs) + 2) (mr, csr) = .ok [] := by
            refine emit_end pid (by omega) ?_
            rw [hendr]
            exact isEnd_endCursors _
          refine ⟨[], ?_, ?_, List.Pairwise.nil⟩
          · rw [hstart, hadv, rbind_ok]
            exact hemit
          · intro i
            simp only [List.map_nil, List.not_mem_nil, false_iff]
            intro hall
            have hi := hgt i hall
            exact hnallr i hi ((hchain i hi).1 hall)
        · have hlenr := hsufr.length_eq
          obtain ⟨dz, rest₂, rfl⟩ : ∃ dz rest₂, csr = dz :: rest₂ := by
            match csr, hlenr with
            | dz :: rest₂, _ => exact ⟨dz, rest₂, rfl⟩
          obtain ⟨z, zs, rfl, hz⟩ : ∃ z zs, dz = z :: zs ∧ pid z = mr := by
            rcases hheadsr _ (List.mem_cons_self _ _) with ⟨z, zs, rfl, hz⟩
            exact ⟨z, zs, rfl, hz⟩
          have hrest₂ : rest₂ ≠ [] := by
            intro h
            rw [h] at hlenr
            have h2 := hsuf₁.length_eq
            simp only [List.length_cons, List.length_nil] at hlenr h2
            omega
          have hsufz : (z :: zs).IsSuffix xs := by
            cases hsufr with
            | cons h _ => exact h
          have hes := emit_spec pid (totalLen ((x :: xs) :: r :: rs) + 1)
            (2 * totalLen ((x :: xs) :: r :: rs) + 2) mr z zs rest₂ hrest₂ hheadsr
            (sorted_of_forall₂_suffix pid hsufr
              (by
                intro l hl
                rcases List.mem_cons.1 hl with heq | hl'
                · rw [heq]
                  exact sortedBy_suffix pid (List.suffix_cons x xs) hsd
                · exact sorted_of_forall₂_suffix pid hsuf₁ hs' l hl'))
            (by
              have h2 := hsufz.length_le
              simp only [totalLen, List.map_cons, List.sum_cons, List.length_cons] at h2 ⊢
              omega)
            (by
              have h2 := forall₂_suffix_totalLen_le hsufr
              have h3 := forall₂_suffix_totalLen_le hsuf₁
              have h4 := hsufz.length_le
              simp only [totalLen, List.map_cons, List.sum_cons, List.length_cons] at h2 h3 h4 ⊢
              omega)
          rcases hes with ⟨out', hemit', hmemb', hpair', _⟩
          refine ⟨out', ?_, ?_, hpair'⟩
          · rw [hstart, hadv, rbind_ok]
            exact hemit'
          · intro i
            rw [hmemb' i]
            constructor
            · rintro ⟨hmri, hallr⟩
              have hxi : pid x < i := lt_of_lt_of_le hmltr hmri
              exact (hchain i hxi).2 ((htransr i hxi).2 ⟨hmri, hallr⟩)
            · intro hall
              have hxi := hgt i hall
              exact (htransr i hxi).1 ((hchain i hxi).1 hall)

theorem unionTraverseFull_spec (SS : List (List α)) (hSS : SS ≠ [])
    (h1 : ∀ S, SS = [S] → S ≠ []) (hs : ∀ S ∈ SS, SortedBy pid S) :
    ∃ out, unionTraverseFull pid pid SS = .ok out ∧
      (∀ i, i ∈ out.map Prod.fst ↔ AllHave pid SS i) ∧
      (out.map Prod.fst).Pairwise (· < ·) := by
  have hrev : SS.reverse ≠ [] := fun h => hSS (List.reverse_eq_nil_iff.1 h)
  have h1' : ∀ l, SS.reverse = [l] → l ≠ [] := by
    intro l hl
    refine h1 l ?_
    have := congrArg List.reverse hl
    rw [List.reverse_reverse] at this
    simpa using this
  have hs' : ∀ l ∈ SS.reverse, SortedBy pid l :=
    fun l hl => hs l (List.mem_reverse.1 hl)
  rcases beginTraverse_spec pid SS.reverse hrev h1' hs' with ⟨out, hrun, hmemb, hpair⟩
  refine ⟨out, hrun, ?_, hpair⟩
  intro i
  rw [hmemb i]
  exact allHave_reverse pid

theorem unionTraverse_eq_spec (SS : List (List α)) (hSS : SS ≠ [])
    (h1 : ∀ S, SS = [S] → S ≠ []) (hs : ∀ S ∈ SS, SortedBy pid S) :
    unionTraverse pid pid SS = .ok (specIntersection pid SS) := by
  rcases unionTraverseFull_spec pid SS hSS h1 hs with ⟨out, hfull, hmemb, hpair⟩
  have htop : unionTraverse pid pid SS =
      rbind (unionTraverseFull pid pid SS) (fun out => .ok (out.map Prod.fst)) := rfl
  rw [htop, hfull, rbind_ok]
  have : out.map Prod.fst = specIntersection pid SS := by
    refine sorted_ext hpair (specIntersection_sorted pid hs) ?_
    intro i
    rw [hmemb i, specIntersection_mem pid hSS i]
  rw [this]

theorem unionSteps_of_full {rawId : α → Int} {SS : List (List α)}
    {out : List (Int × List α)}
    (h : unionTraverseFull pid rawId SS = .ok out) :
    unionSteps pid rawId SS = .ok out.length := by
  have htop : unionTraverseFull pid rawId SS =
      rbind (startState pid rawId (2 * totalLen SS.reverse + 2) SS.reverse)
        (fun s => emit pid (totalLen SS.reverse + 1) (2 * totalLen SS.reverse + 2) s) := rfl
  have htop2 : unionSteps pid rawId SS =
      rbind (startState pid rawId (2 * totalLen SS.reverse + 2) SS.reverse)
        (fun s => stepsToEnd pid (totalLen SS.reverse + 1) (2 * totalLen SS.reverse + 2) s) := rfl
  rw [htop] at h
  rw [htop2]
  cases hss : startState pid rawId (2 * totalLen SS.reverse + 2) SS.reverse with
  | ub => rw [hss] at h; exact absurd h (by simp)
  | fuelOut => rw [hss] at h; exact absurd h (by simp)
  | ok s =>
    rw [hss] at h
    rw [rbind_ok]
    simp only [rbind_ok] at h
    exact stepsToEnd_eq pid _ _ s out h

/-- The constructor only produces the collective end or a state whose
cursors all sit on records carrying one common identifier. -/
theorem startState_inv {fs : Nat} {cs₀ : List (List α)} {s : Int × List (List α)}
    (hsorted : ∀ l ∈ cs₀, SortedBy pid l) (hfs : 2 * totalLen cs₀ + 2 ≤ fs)
    (h : startState pid pid fs cs₀ = .ok s) :
    List.Forall₂ (fun a b => a.IsSuffix b) s.2 cs₀ ∧
      ((∀ l ∈ s.2, l = []) ∨ ∃ m, ∀ l ∈ s.2, ∃ z zs, l = z :: zs ∧ pid z = m) := by
  match cs₀, hsorted, hfs, h with
  | [], _, _, h =>
    exact absurd (show (R.ub : R (Int × List (List α))) = .ok s from h) (by simp)
  | [d], hsorted, hfs, h =>
    cases d with
    | nil =>
      exact absurd (show (R.ub : R (Int × List (List α))) = .ok s from h) (by simp)
    | cons x xs =>
      have h' : R.ok ((pid x, [x :: xs]) : Int × List (List α)) = .ok s := h
      simp only [R.ok.injEq] at h'
      subst h'
      refine ⟨forall₂_suffix_refl _, Or.inr ⟨pid x, ?_⟩⟩
      intro l hl
      rcases List.mem_cons.1 hl with rfl | hl'
      · exact ⟨x, xs, rfl, rfl⟩
      · exact absurd hl' (List.not_mem_nil l)
  | d :: r :: rs, hsorted, hfs, h =>
    by_cases hempty : (d :: r :: rs).any List.isEmpty = true
    · rw [startState_two, if_pos hempty] at h
      simp only [R.ok.injEq] at h
      subst h
      refine ⟨forall₂_suffix_endCursors _, Or.inl ?_⟩
      intro l hl
      rcases List.mem_map.1 hl with ⟨_, _, rfl⟩
      rfl
    · have hne : ∀ l ∈ d :: r :: rs, l ≠ [] := by
        intro l hl he
        exact hempty (List.any_eq_true.2 ⟨l, hl, by rw [he]; rfl⟩)
      obtain ⟨x, xs, rfl⟩ : ∃ x xs, d = x :: xs := by
        match d, hne d (List.mem_cons_self _ _) with
        | x :: xs, _ => exact ⟨x, xs, rfl⟩
      have hne' : ∀ l ∈ r :: rs, l ≠ [] := fun l hl => hne l (List.mem_cons_of_mem _ hl)
      have hs' : ∀ l ∈ r :: rs, SortedBy pid l :=
        fun l hl => hsorted l (List.mem_cons_of_mem _ hl)
      rcases onePass_spec pid (pid x) (r :: rs) hne' hs' with ⟨pr, hpr, hspec⟩
      rw [startState_two_cons, if_neg hempty, hpr] at h
      cases pr with
      | exhausted =>
        have h' : R.ok ((pid x, endCursors ((x :: xs) :: r :: rs)) :
            Int × List (List α)) = .ok s := h
        simp only [R.ok.injEq] at h'
        subst h'
        refine ⟨forall₂_suffix_endCursors _, Or.inl ?_⟩
        intro l hl
        rcases List.mem_map.1 hl with ⟨_, _, rfl⟩
        rfl
      | aligned rest' =>
        rcases hspec with ⟨hsuf', hheads', _⟩
        have h' : R.ok ((pid x, (x :: xs) :: rest') : Int × List (List α)) = .ok s := h
        simp only [R.ok.injEq] at h'
        subst h'
        refine ⟨List.Forall₂.cons (List.suffix_refl _) hsuf', Or.inr ⟨pid x, ?_⟩⟩
        intro l hl
        rcases List.mem_cons.1 hl with rfl | hl'
        · exact ⟨x, xs, rfl, rfl⟩
        · exact hheads' l hl'
      | newMax m' rest₁ =>
        rcases hspec with ⟨hm', hsuf₁, hne₁, _, _, _⟩
        have h' : advanceStep pid fs (m', (x :: xs) :: rest₁) = .ok s := h
        have hrest₁ : rest₁ ≠ [] := by
          intro hnil
          have := hsuf₁.length_eq
          rw [hnil] at this
          simp at this
        have hadvs := advanceStep_spec pid fs m' x xs rest₁ hrest₁ hne₁
          (hsorted _ (List.mem_cons_self _ _))
          (sorted_of_forall₂_suffix pid hsuf₁ hs')
          (by
            have h1 := forall₂_suffix_totalLen_le hsuf₁
            simp only [totalLen, List.map_cons, List.sum_cons, List.length_cons] at h1 hfs ⊢
            omega)
        rcases hadvs with ⟨mr, csr, hadv, hsufr, hres⟩
        rw [hadv] at h'
        simp only [R.ok.injEq] at h'
        subst h'
        have hsuffix : List.Forall₂ (fun (a b : List α) => a.IsSuffix b) csr
            ((x :: xs) :: r :: rs) :=
          forall₂_suffix_trans hsufr
            (List.Forall₂.cons (List.suffix_cons x xs) hsuf₁)
        rcases hres with ⟨hend, _⟩ | ⟨hheads, _, _⟩
        · refine ⟨hsuffix, Or.inl ?_⟩
          intro l hl
          rw [hend] at hl
          rcases List.mem_map.1 hl with ⟨_, _, rfl⟩
          rfl
        · exact ⟨hsuffix, Or.inr ⟨mr, hheads⟩⟩

/-- operator++ preserves the end-or-aligned invariant. -/
theorem advance_inv {fs : Nat} {cs₀ : List (List α)} {s t : Int × List (List α)}
    (hsorted : ∀ l ∈ cs₀, SortedBy pid l) (hfs : 2 * totalLen cs₀ + 2 ≤ fs)
    (hsuf : List.Forall₂ (fun a b => a.IsSuffix b) s.2 cs₀)
    (hinv : (∀ l ∈ s.2, l = []) ∨ ∃ m, ∀ l ∈ s.2, ∃ z zs, l = z :: zs ∧ pid z = m)
    (h : advanceStep pid fs s = .ok t) :
    List.Forall₂ (fun a b => a.IsSuffix b) t.2 cs₀ ∧
      ((∀ l ∈ t.2, l = []) ∨ ∃ m, ∀ l ∈ t.2, ∃ z zs, l = z :: zs ∧ pid z = m) := by
  obtain ⟨ms, cls⟩ := s
  cases cls with
  | nil =>
    exact absurd (show (R.ub : R (Int × List (List α))) = .ok t from h) (by simp)
  | cons l ls =>
    have hlne : l ≠ [] := by
      intro hnil
      subst hnil
      exact absurd (show (R.ub : R (Int × List (List α))) = .ok t from h) (by simp)
    obtain ⟨z, zs, rfl⟩ : ∃ z zs, l = z :: zs := by
      match l, hlne with
      | z :: zs, _ => exact ⟨z, zs, rfl⟩
    have hm : ∃ m, ∀ l' ∈ (z :: zs) :: ls, ∃ w ws, l' = w :: ws ∧ pid w = m := by
      rcases hinv with hnil | hm
      · exact absurd (hnil _ (List.mem_cons_self _ _)) (List.cons_ne_nil z zs)
      · exact hm
    rcases hm with ⟨m, hm⟩
    have hsorted' : ∀ l' ∈ (z :: zs) :: ls, SortedBy pid l' :=
      sorted_of_forall₂_suffix pid hsuf hsorted
    cases ls with
    | nil =>
      have h' : R.ok ((ms, [zs]) : Int × List (List α)) = .ok t := h
      simp only [R.ok.injEq] at h'
      subst h'
      have hsufz : List.Forall₂ (fun (a b : List α) => a.IsSuffix b) [zs] [z :: zs] :=
        List.Forall₂.cons (List.suffix_cons z zs) List.Forall₂.nil
      refine ⟨forall₂_suffix_trans hsufz hsuf, ?_⟩
      cases zs with
      | nil =>
        refine Or.inl ?_
        intro l' hl'
        rcases List.mem_cons.1 hl' with rfl | hl''
        · rfl
        · exact absurd hl'' (List.not_mem_nil l')
      | cons w ws =>
        refine Or.inr ⟨pid w, ?_⟩
        intro l' hl'
        rcases List.mem_cons.1 hl' with rfl | hl''
        · exact ⟨w, ws, rfl, rfl⟩
        · exact absurd hl'' (List.not_mem_nil l')
    | cons l₂ ls₂ =>
      have hne₂ : ∀ l' ∈ l₂ :: ls₂, l' ≠ [] := by
        intro l' hl'
        rcases hm l' (List.mem_cons_of_mem _ hl') with ⟨w, ws, rfl, _⟩
        exact List.cons_ne_nil w ws
      have hadvs := advanceStep_spec pid fs ms z zs (l₂ :: ls₂) (List.cons_ne_nil _ _)
        hne₂ (hsorted' _ (List.mem_cons_self _ _))
        (fun l' hl' => hsorted' l' (List.mem_cons_of_mem _ hl'))
        (by
          have h1 := forall₂_suffix_totalLen_le hsuf
          simp only [totalLen, List.map_cons, List.sum_cons, List.length_cons] at h1 hfs ⊢
          omega)
      rcases hadvs with ⟨mr, csr, hadv, hsufr, hres⟩
      rw [hadv] at h
      simp only [R.ok.injEq] at h
      subst h
      have hsuffix : List.Forall₂ (fun (a b : List α) => a.IsSuffix b) csr cs₀ :=
        forall₂_suffix_trans
          (forall₂_suffix_trans hsufr
            (List.Forall₂.cons (List.suffix_cons z zs) (forall₂_suffix_refl _)))
          hsuf
      rcases hres with ⟨hend, _⟩ | ⟨hheads, _, _⟩
      · refine ⟨hsuffix, Or.inl ?_⟩
        intro l' hl'
        rw [hend] at hl'
        rcases List.mem_map.1 hl' with ⟨_, _, rfl⟩
        rfl
      · exact ⟨hsuffix, Or.inr ⟨mr, hheads⟩⟩

/-- Every reachable state of the iterator is the collective end or a
state aligned on a common identifier, with cursors inside the
original sequences. -/
theorem reached_inv {fs : Nat} {cs₀ : List (List α)} {s : Int × List (List α)}
    (hsorted : ∀ l ∈ cs₀, SortedBy pid l) (hfs : 2 * totalLen cs₀ + 2 ≤ fs)
    (h : Reached pid pid fs cs₀ s) :
    List.Forall₂ (fun a b => a.IsSuffix b) s.2 cs₀ ∧
      ((∀ l ∈ s.2, l = []) ∨ ∃ m, ∀ l ∈ s.2, ∃ z zs, l = z :: zs ∧ pid z = m) := by
  induction h with
  | start hstart => exact startState_inv pid hsorted hfs hstart
  | step _ hstep ih => exact advance_inv pid hsorted hfs ih.1 ih.2 hstep

theorem forall₂_mem_right {R : List α → List α → Prop} :
    ∀ {as bs : List (List α)}, List.Forall₂ R as bs → ∀ b ∈ bs, ∃ a ∈ as, R a b := by
  intro as bs h
  induction h with
  | nil => intro b hb; exact absurd hb (List.not_mem_nil b)
  | cons hR t ih =>
    intro b hb
    rcases List.mem_cons.1 hb with rfl | hb'
    · exact ⟨_, List.mem_cons_self _ _, hR⟩
    · rcases ih b hb' with ⟨a, ha, hab⟩
      exact ⟨a, List.mem_cons_of_mem _ ha, hab⟩

theorem viewAt_endCursors (cs : List (List α)) : viewAt (endCursors cs) = [] := by
  induction cs with
  | nil => rfl
  | cons l ls ih => simp only [viewAt, endCursors, List.map_cons, List.filterMap_cons] at ih ⊢; exact ih

theorem forall₂_seqFind (i : Int) : ∀ (SS : List (List α)),
    List.Forall₂ (fun (a b : List α) => a.IsSuffix b) (SS.map (seqFind pid i)) SS
  | [] => List.Forall₂.nil
  | S :: rest => List.Forall₂.cons (seqFind_suffix pid i S) (forall₂_seqFind i rest)

/-- Characterization of union_set::find over at least two sequences:
construction always succeeds, the result differs from end() exactly
when the identifier is present in every sequence, and every record
exposed by dereferencing carries that identifier. -/
theorem findIter_spec (i : Int) (SS : List (List α)) (h2 : 2 ≤ SS.length)
    (hs : ∀ S ∈ SS, SortedBy pid S) :
    ∃ s, findIter pid pid i SS = .ok s ∧
      ((isEnd s.2 = false) ↔ ∀ S ∈ SS, ∃ x ∈ S, pid x = i) ∧
      (∀ rec ∈ viewAt s.2, pid rec = i) := by
  have htop : findIter pid pid i SS =
      startState pid pid (2 * totalLen ((SS.map (seqFind pid i)).reverse) + 2)
        ((SS.map (seqFind pid i)).reverse) := rfl
  have hlen : ((SS.map (seqFind pid i)).reverse).length = SS.length := by simp
  obtain ⟨d, r, rsL, hcs⟩ : ∃ d r rsL,
      (SS.map (seqFind pid i)).reverse = d :: r :: rsL := by
    cases hc1 : (SS.map (seqFind pid i)).reverse with
    | nil =>
      rw [hc1] at hlen
      simp only [List.length_nil] at hlen
      omega
    | cons d tail =>
      cases tail with
      | nil =>
        rw [hc1] at hlen
        simp only [List.length_cons, List.length_nil] at hlen
        omega
      | cons r rsL => exact ⟨d, r, rsL, rfl⟩
  by_cases hallp : ∀ S ∈ SS, ∃ x ∈ S, pid x = i
  · have hmem : ∀ l ∈ (SS.map (seqFind pid i)).reverse,
        ∃ z zs, l = z :: zs ∧ pid z = i := by
      intro l hl
      rcases List.mem_map.1 (List.mem_reverse.1 hl) with ⟨S, hS, rfl⟩
      exact seqFind_found pid (hs S hS) (hallp S hS)
    have hmem' : ∀ l ∈ d :: r :: rsL, ∃ z zs, l = z :: zs ∧ pid z = i :=
      fun l hl => hmem l (hcs ▸ hl)
    obtain ⟨x, xs, rfl⟩ : ∃ x xs, d = x :: xs := by
      rcases hmem' d (List.mem_cons_self _ _) with ⟨z, zs, rfl, _⟩
      exact ⟨z, zs, rfl⟩
    have hpx : pid x = i := by
      rcases hmem' (x :: xs) (List.mem_cons_self _ _) with ⟨z, zs, heq, hz⟩
      injection heq with h1 _
      exact h1 ▸ hz
    have hempty : ¬ ((x :: xs) :: r :: rsL).any List.isEmpty = true := by
      intro hany
      rcases List.any_eq_true.1 hany with ⟨l, hl, hle⟩
      rcases hmem' l hl with ⟨z, zs, rfl, _⟩
      exact absurd hle (by simp)
    have honepass : onePass pid (pid x) (r :: rsL) = some (.aligned (r :: rsL)) := by
      refine onePass_aligned_of_heads pid _ ?_
      intro l hl
      rcases hmem' l (List.mem_cons_of_mem _ hl) with ⟨z, zs, rfl, hz⟩
      exact ⟨z, zs, rfl, by rw [hz, hpx]⟩
    have hstart : startState pid pid
        (2 * totalLen ((x :: xs) :: r :: rsL) + 2) ((x :: xs) :: r :: rsL) =
        .ok (pid x, (x :: xs) :: r :: rsL) := by
      rw [startState_two_cons, if_neg hempty, honepass]
    refine ⟨(pid x, (x :: xs) :: r :: rsL), ?_, ?_, ?_⟩
    · rw [htop, hcs]
      exact hstart
    · have hendf : isEnd ((x :: xs) :: r :: rsL) = false := rfl
      exact ⟨fun _ => hallp, fun _ => hendf⟩
    · intro rec hrec
      rcases List.mem_filterMap.1 hrec with ⟨l, hl, hh⟩
      rcases hmem' l hl with ⟨z, zs, rfl, hz⟩
      simp only [List.head?_cons, Option.some.injEq] at hh
      exact hh ▸ hz
  · have hsome : ∃ S₀ ∈ SS, ¬ ∃ x ∈ S₀, pid x = i := by
      by_contra hno
      push_neg at hno
      exact hallp fun S hS => by
        rcases hno S hS with ⟨x, hx, hxi⟩
        exact ⟨x, hx, hxi⟩
    rcases hsome with ⟨S₀, hS₀, hmiss⟩
    have hnil : seqFind pid i S₀ = [] := seqFind_not_found pid hmiss
    have hempty : (d :: r :: rsL).any List.isEmpty = true := by
      refine List.any_eq_true.2 ⟨seqFind pid i S₀, ?_, by rw [hnil]; rfl⟩
      rw [← hcs]
      exact List.mem_reverse.2 (List.mem_map.2 ⟨S₀, hS₀, rfl⟩)
    have hstart : startState pid pid (2 * totalLen (d :: r :: rsL) + 2)
        (d :: r :: rsL) = .ok (0, endCursors (d :: r :: rsL)) := by
      rw [startState_two, if_pos hempty]
    refine ⟨(0, endCursors (d :: r :: rsL)), ?_, ?_, ?_⟩
    · rw [htop, hcs]
      exact hstart
    · constructor
      · intro hf
        have := isEnd_endCursors (d :: r :: rsL)
        rw [hf] at this
        exact absurd this (by simp)
      · intro hall
        exact absurd hall hallp
    · intro rec hrec
      rw [viewAt_endCursors] at hrec
      exact absurd hrec (List.not_mem_nil rec)

end Lemmas

/-
  The Composite View (union_set_el, lines 177-228): a tuple of
  pointers, one per participating record type.  The embedding models
  a record type as a tag, a pointer as the address of a record in the
  per-type heap, and the view as the list of tag-address pairs in
  bundle order.
-/

/-- A record type participating in a Composite View. -/
inductive CompTag : Type where
  | tA : CompTag
  | tB : CompTag
  | tC : CompTag
deriving DecidableEq

/-- A Composite View over a type set: for each participating type
tag, the address of the record the stored pointer designates. -/
def CompView : Type := List (CompTag × Nat)

/-- The pointer stored in the view for type t (the type-indexed
tuple access performed by get and by the conversion
operators). -/
def storedPtr (t : CompTag) : CompView → Option Nat
  | [] => none
  | (u, p) :: rest => if u = t then some p else storedPtr t rest

/-- The subset-view constructor (lines 200-206): for every type of
the target set, copy the pointer stored in the source view; the
records themselves are never read or copied. -/
def subsetView (target : List CompTag) (v : CompView) : CompView :=
  target.map (fun t => (t, (storedPtr t v).getD 0))

/-- get of T on a view (lines 210-228): dereference the stored
pointer in the storage of records of that type. -/
def getRecord {β : Type} (heap : CompTag → Nat → β) (t : CompTag) (v : CompView) :
    Option β :=
  (storedPtr t v).map (heap t)

theorem storedPtr_subsetView : ∀ (target : List CompTag) (v : CompView) (t : CompTag)
    (p : Nat), t ∈ target → storedPtr t v = some p →
    storedPtr t (subsetView target v) = some p
  | [], _, t, _, ht, _ => absurd ht (List.not_mem_nil t)
  | u :: rest, v, t, p, ht, hp => by
    by_cases hut : u = t
    · subst hut
      show (if u = u then some ((storedPtr u v).getD 0) else _) = some p
      rw [if_pos rfl, hp]
      rfl
    · have ht' : t ∈ rest := by
        rcases List.mem_cons.1 ht with rfl | h'
        · exact absurd rfl hut
        · exact h'
      show (if u = t then some ((storedPtr u v).getD 0) else
        storedPtr t (subsetView rest v)) = some p
      rw [if_neg hut]
      exact storedPtr_subsetView rest v t p ht' hp

/-
  Claim theorems.
-/

/-- C1 (counterexample): the claim fails for the single empty
sequence.  The sorted intersection is empty, but instead of producing
the empty traversal, construction dereferences the end cursor (start
reads current->Id with current == end, because the exhaustion check
is compiled out for one sequence), so the traversal is not the
required identifier sequence. -/
theorem c1_counterexample :
    ¬ (unionTraverse (fun x : Int => x) (fun x : Int => x) [[]] =
       .ok (specIntersection (fun x : Int => x) [[]])) := by
  decide

/-- C1 (amended): for every non-empty list of participating
sequences, each sorted strictly ascending by identifier — excluding
the single empty sequence, where construction dereferences the end
cursor — the sequence of identifiers obtained by dereferencing at
each positioned state while traversing from begin() to end() equals
the sorted intersection of the identifier sets, with no duplicates
and no omissions. -/
theorem c1_traversal_eq_sorted_intersection {α : Type} (pid : α → Int)
    (SS : List (List α)) (hSS : SS ≠ []) (h1 : ∀ S, SS = [S] → S ≠ [])
    (hs : ∀ S ∈ SS, SortedBy pid S) :
    unionTraverse pid pid SS = .ok (specIntersection pid SS) :=
  unionTraverse_eq_spec pid SS hSS h1 hs

theorem c1_witness :
    unionTraverse (fun x : Int => x) (fun x : Int => x) [[1, 2, 3], [1, 2], [2, 3]] =
      .ok (specIntersection (fun x : Int => x) [[1, 2, 3], [1, 2], [2, 3]]) :=
  c1_traversal_eq_sorted_intersection (fun x : Int => x) [[1, 2, 3], [1, 2], [2, 3]]
    (by decide) (by intro S h; simp at h) (by decide)

/-- C2: every reachable state of a Multiway Intersection Iterator —
after construction via begin (the full cursors), end (the end
cursors) or find (the looked-up cursors), and after any number of
successful advances — is either end (every cursor equal to its end
cursor; in particular, whenever a sequence is exhausted during
synchronization, every cursor is at its end, never only some) or
positioned: all cursors hold records with one common identifier, and
that identifier is present in every participating sequence. -/
theorem c2_reachable_end_or_aligned {α : Type} (pid : α → Int) (SS : List (List α))
    (i : Int) (fs : Nat) (cs₀ : List (List α))
    (hs : ∀ S ∈ SS, SortedBy pid S)
    (hcs₀ : cs₀ = SS.reverse ∨ cs₀ = endCursors SS.reverse ∨
      cs₀ = (SS.map (seqFind pid i)).reverse)
    (hfs : 2 * totalLen cs₀ + 2 ≤ fs) :
    ∀ s, Reached pid pid fs cs₀ s →
      isEnd s.2 = true ∨
      ∃ m, (∀ l ∈ s.2, ∃ z zs, l = z :: zs ∧ pid z = m) ∧
        (∀ S ∈ SS, ∃ x ∈ S, pid x = m) := by
  have hsufc : List.Forall₂ (fun (a b : List α) => a.IsSuffix b) cs₀ SS.reverse := by
    rcases hcs₀ with rfl | rfl | rfl
    · exact forall₂_suffix_refl _
    · exact forall₂_suffix_endCursors _
    · exact List.forall₂_reverse_iff.2 (forall₂_seqFind pid i SS)
  have hsorted₀ : ∀ l ∈ cs₀, SortedBy pid l :=
    sorted_of_forall₂_suffix pid hsufc (fun l hl => hs l (List.mem_reverse.1 hl))
  intro s hreach
  rcases reached_inv pid hsorted₀ hfs hreach with ⟨hsuf, hnil | ⟨m, hm⟩⟩
  · exact Or.inl (isEnd_iff.2 hnil)
  · refine Or.inr ⟨m, hm, ?_⟩
    intro S hS
    have hS' : S ∈ SS.reverse := List.mem_reverse.2 hS
    have hsuf2 := forall₂_suffix_trans hsuf hsufc
    rcases forall₂_mem_right hsuf2 S hS' with ⟨l, hl, hlsuf⟩
    rcases hm l hl with ⟨z, zs, rfl, hz⟩
    exact ⟨z, hlsuf.sublist.subset (List.mem_cons_self _ _), hz⟩

theorem c2_witness :
    isEnd ((1 : Int), [[(1 : Int)], [1]]).2 = true ∨
    ∃ m, (∀ l ∈ ((1 : Int), [[(1 : Int)], [1]]).2,
            ∃ z zs, l = z :: zs ∧ (fun x : Int => x) z = m) ∧
      (∀ S ∈ [[(1 : Int)], [1]], ∃ x ∈ S, (fun x : Int => x) x = m) :=
  c2_reachable_end_or_aligned (fun x : Int => x) [[1], [1]] 0 6 [[1], [1]]
    (by decide) (Or.inl (by decide)) (by decide)
    ((1 : Int), [[(1 : Int)], [1]]) (Reached.start (by decide))

/-- C3: the claim is violated by the code (code bug).  With exactly
one participating sequence whose cursor pair already has
current == end — a single empty set, or a failed find on a single
set, as in the repository example entities_find(100, transforms) —
the constructor start() executes max_ = current->Id and dereferences
the end cursor, because the any_at_end guard is compiled out for a
single set.  In the total embedding the error branch IS reached: both
constructions below land in the ub branch instead of the end
state. -/
theorem c3_single_empty_construction_derefs_end :
    startState (fun x : Int => x) (fun x : Int => x) 4 [([] : List Int)] = .ub ∧
    startState (fun x : Int => x) (fun x : Int => x) 4
      [seqFind (fun x : Int => x) 100 [1, 2, 3]] = .ub :=
  ⟨rfl, rfl⟩

/-- C4: the claim is violated by the code (code bug).  start() seeds
the running maximum from the raw Id field of the driver record
(current->Id, line 321) instead of the pluggable identifier
projection used everywhere else.  With records whose projection is
Id + 1 (two sequences, each holding the single record with Id field
0), the identifier 1 is in both identifier sets, yet the traversal
is empty because max_ was seeded with the raw 0; seeding through the
projection (third conjunct) yields the correct traversal. -/
theorem c4_raw_id_seed_bypasses_projection :
    unionTraverse (fun x : Int => x + 1) (fun x : Int => x) [[0], [0]] = .ok [] ∧
    specIntersection (fun x : Int => x + 1) [[0], [0]] = [1] ∧
    unionTraverse (fun x : Int => x + 1) (fun x : Int => x + 1) [[0], [0]] = .ok [1] :=
  ⟨by decide, by decide, by decide⟩

/-- C5 (counterexample): a lookup for a nonexistent identifier on a
Union Index over exactly one sequence does not yield the terminal
iterator: construction dereferences the end cursor returned by the
failed find (the C3 defect), which the embedding reports as ub. -/
theorem c5_counterexample :
    findIter (fun x : Int => x) (fun x : Int => x) 5 [[1]] = .ub := rfl

/-- C5 (amended): for every Union Index over at least two sequences
sorted by identifier, find(id) constructs an iterator with no error;
it differs from end() exactly when id is a member of every
participating identifier set, and when found, dereferencing yields
records whose identifiers all equal id. -/
theorem c5_find_lookup_consistency {α : Type} (pid : α → Int) (i : Int)
    (SS : List (List α)) (h2 : 2 ≤ SS.length) (hs : ∀ S ∈ SS, SortedBy pid S) :
    ∃ s, findIter pid pid i SS = .ok s ∧
      ((isEnd s.2 = false) ↔ ∀ S ∈ SS, ∃ x ∈ S, pid x = i) ∧
      (∀ rec ∈ viewAt s.2, pid rec = i) :=
  findIter_spec pid i SS h2 hs

theorem c5_witness :
    ∃ s, findIter (fun x : Int => x) (fun x : Int => x) 2 [[1, 2], [2]] = .ok s ∧
      ((isEnd s.2 = false) ↔ ∀ S ∈ [[(1 : Int), 2], [2]], ∃ x ∈ S, (fun x : Int => x) x = 2) ∧
      (∀ rec ∈ viewAt s.2, (fun x : Int => x) rec = 2) :=
  c5_find_lookup_consistency (fun x : Int => x) 2 [[1, 2], [2]] (by decide) (by decide)

/-- C6 (counterexample): the claim fails for the single empty
sequence, where the intersection has zero elements but traversal does
not reach end() after zero advances: construction dereferences the
end cursor (the C3 defect). -/
theorem c6_counterexample :
    ¬ (unionSteps (fun x : Int => x) (fun x : Int => x) [[]] =
       .ok (specIntersection (fun x : Int => x) [[]]).length) := by
  decide

/-- C6 (amended): for every non-empty list of ordered sequences —
excluding the single empty sequence, where construction dereferences
the end cursor — traversal terminates: starting from begin(), the
iterator reaches end() after exactly as many operator++ calls as
there are elements in the intersection of the identifier sets; in
particular all synchronization loops terminate within the explicit
fuel bound. -/
theorem c6_traversal_terminates_in_intersection_steps {α : Type} (pid : α → Int)
    (SS : List (List α)) (hSS : SS ≠ []) (h1 : ∀ S, SS = [S] → S ≠ [])
    (hs : ∀ S ∈ SS, SortedBy pid S) :
    unionSteps pid pid SS = .ok (specIntersection pid SS).length := by
  rcases unionTraverseFull_spec pid SS hSS h1 hs with ⟨out, hfull, hmemb, hpair⟩
  have hspec : out.map Prod.fst = specIntersection pid SS :=
    sorted_ext hpair (specIntersection_sorted pid hs)
      (fun i => by rw [hmemb i, specIntersection_mem pid hSS i])
  rw [unionSteps_of_full pid hfull]
  have : (specIntersection pid SS).length = out.length := by
    rw [← hspec, List.length_map]
  rw [this]

theorem c6_witness :
    unionSteps (fun x : Int => x) (fun x : Int => x) [[1, 2, 3], [2, 3]] =
      .ok (specIntersection (fun x : Int => x) [[1, 2, 3], [2, 3]]).length :=
  c6_traversal_terminates_in_intersection_steps (fun x : Int => x) [[1, 2, 3], [2, 3]]
    (by decide) (by intro S h; simp at h) (by decide)

/-- C7 (counterexample): for sequences A and C with identifier sets
1,2,3 and 2,3, the full traversal does NOT yield the identifier
sequence [3] claimed by the specification example. -/
theorem c7_counterexample :
    ¬ (unionTraverse (fun x : Int => x) (fun x : Int => x) [[1, 2, 3], [2, 3]] =
       .ok [3]) := by
  decide

/-- C7 (amended): for sequences A and C with identifier sets 1,2,3
and 2,3, the full traversal of the intersection iteration yields the
identifier sequence [2, 3] — the actual sorted intersection (the
example in the specification drops the element 2). -/
theorem c7_intersection_of_a_c :
    unionTraverse (fun x : Int => x) (fun x : Int => x) [[1, 2, 3], [2, 3]] =
      .ok [2, 3] := by
  decide

/-- C8 (counterexample): the claim fails for the single EMPTY
sequence: direct iteration of the empty sequence yields the empty
traversal, but the Union Index construction over it dereferences the
end cursor (the C3 defect) instead of degenerating to the
pass-through. -/
theorem c8_counterexample :
    ¬ (unionTraverseFull (fun x : Int => x) (fun x : Int => x) [([] : List Int)] =
       .ok (specDirectPassThrough (fun x : Int => x) [])) := by
  decide

/-- C8 (amended): for every NONEMPTY single sequence S, the Union
Index over exactly S produces the same traversal order and element
set as iterating S directly with its own cursor: each step exposes
the next record of S and its identifier, in sequence order (no
sortedness is even required — the degenerate iterator performs no
comparisons). -/
theorem c8_single_sequence_passthrough {α : Type} (pid : α → Int) (S : List α)
    (hne : S ≠ []) :
    unionTraverseFull pid pid [S] = .ok (specDirectPassThrough pid S) := by
  obtain ⟨x, xs, rfl⟩ : ∃ x xs, S = x :: xs := by
    match S, hne with
    | x :: xs, _ => exact ⟨x, xs, rfl⟩
  have htop : unionTraverseFull pid pid [x :: xs] =
      rbind (startState pid pid (2 * totalLen [x :: xs] + 2) [x :: xs])
        (fun s => emit pid (totalLen [x :: xs] + 1) (2 * totalLen [x :: xs] + 2) s) := rfl
  rw [htop]
  have hstart : startState pid pid (2 * totalLen [x :: xs] + 2) [x :: xs] =
      .ok (pid x, [x :: xs]) := rfl
  rw [hstart, rbind_ok]
  rw [emit_single pid (x :: xs) (totalLen [x :: xs] + 1) (2 * totalLen [x :: xs] + 2)
    (pid x) (by simp [totalLen])]
  rfl

theorem c8_witness :
    unionTraverseFull (fun x : Int => x) (fun x : Int => x) [[1, 2]] =
      .ok (specDirectPassThrough (fun x : Int => x) [1, 2]) :=
  c8_single_sequence_passthrough (fun x : Int => x) [1, 2] (by decide)

/-- C9: for every Composite View v whose stored pointers cover a type
set, every subset of that type set, and every type t of the subset,
the reference returned by get of t on the view constructed from v
over the subset designates the same underlying record as get of t on
v itself: subset conversion copies the stored pointers only and never
touches the records. -/
theorem c9_subset_view_same_record {β : Type} (heap : CompTag → Nat → β)
    (target : List CompTag) (v : CompView) (t : CompTag)
    (ht : t ∈ target) (hcover : ∀ u ∈ target, ∃ p, storedPtr u v = some p) :
    getRecord heap t (subsetView target v) = getRecord heap t v := by
  rcases hcover t ht with ⟨p, hp⟩
  unfold getRecord
  rw [hp, storedPtr_subsetView target v t p ht hp]

theorem c9_witness :
    getRecord (fun _ n => n) CompTag.tA
        (subsetView [CompTag.tA] [(CompTag.tA, 5), (CompTag.tB, 7)]) =
      getRecord (fun _ n => n) CompTag.tA [(CompTag.tA, 5), (CompTag.tB, 7)] :=
  c9_subset_view_same_record (fun _ n => n) [CompTag.tA]
    [(CompTag.tA, 5), (CompTag.tB, 7)] CompTag.tA (by decide)
    (by
      intro u hu
      rcases List.mem_singleton.1 hu with rfl
      exact ⟨5, rfl⟩)

end ECSOS
